import Mathlib

/-!
# Verification of the PRUEBOMETRO math-markup pipeline

A shallow embedding of the `mathUtils` module (`cleanLatex`,
`processMathForWord`, `splitTextAndMath`) of the PRUEBOMETRO repository.
Strings are modelled as `List Char`; the JavaScript regular-expression
replacements are modelled by explicit left-to-right scanners that mirror
the regex engine's behaviour (leftmost match, lazy quantifiers, one-char
advance on failure).  The scanners carry a `Nat` fuel argument, always
instantiated with the input length, so that every definition is structural
and computable by the kernel.

Modelling notes on JavaScript semantics that the embedding reproduces:
* In a JS replacement string, `$$` is an escape denoting one literal `$`
  and `$1` denotes the first capture group, so `'\n$$$1$$\n'` produces
  `"\n$" ++ group ++ "$\n"` and `'$$$1$$'` produces `"$" ++ group ++ "$"`.
* `[\s\S]+?` and `[^$\n]+?` are lazy and require a non-empty interior, so
  a match consumes the shortest non-empty interior followed by the closing
  delimiter, and the scan resumes after the whole match.
* `String.prototype.split` with a capturing group returns the unmatched
  chunks interleaved with the matched tokens; empty chunks are dropped by
  the `if (!part) return;` guard in the source.
* `katex.renderToString` is an external renderer; it is modelled as an
  oracle `Bool → List Char → Option (List Char)` (display flag and TeX
  source in, rendered markup out, `none` for a thrown render error).
-/

namespace Pruebometro

/-- `begins pat s`: `pat` is a prefix of `s`. -/
def begins : List Char → List Char → Bool
  | [], _ => true
  | _ :: _, [] => false
  | p :: ps, c :: cs => p = c && begins ps cs

/-- `occursB pat s`: `pat` occurs as a contiguous substring of `s`. -/
def occursB (pat : List Char) : List Char → Bool
  | [] => begins pat []
  | c :: cs => begins pat (c :: cs) || occursB pat cs

/-- Split at the first occurrence of `pat`:
`splitOcc pat s = some (a, b)` means `s = a ++ pat ++ b` with `a` shortest. -/
def splitOcc (pat : List Char) : List Char → Option (List Char × List Char)
  | [] => if begins pat [] then some ([], []) else none
  | c :: cs =>
    if begins pat (c :: cs) then some ([], (c :: cs).drop pat.length)
    else
      match splitOcc pat cs with
      | some (a, b) => some (c :: a, b)
      | none => none

/-- `mismatchB a b`: the two lists disagree at some position below both
lengths (used to rule out one pattern starting where another was inserted). -/
def mismatchB : List Char → List Char → Bool
  | x :: a, y :: b => !(x = y : Bool) || mismatchB a b
  | _, _ => false

/-!
## The Normalizer (`cleanLatex`)

Source (`mathUtils.ts`):
```
processed = processed.replace(/\\\[([\s\S]+?)\\\]/g, '\n$$$1$$\n');
processed = processed.replace(/\\\(([\s\S]+?)\\\)/g, '$$$1$$');
processed = processed
  .replace(/\\bold{/g, '\\mathbf{')
  .replace(/\\sen/g, '\\sin')
  .replace(/\\tg/g, '\\tan');
```
-/

/-- Does the lazy pattern `\o ([\s\S]+?) \c` match at the head of `s`?
If so, return the (shortest, non-empty) interior and the remainder after
the closing `\c`.  The interior is the part before the *first* occurrence
of `\c` that leaves it non-empty. -/
def matchDelim (o c : Char) : List Char → Option (List Char × List Char)
  | a :: b :: r0 :: rest3 =>
    if a = '\\' && b = o then
      match splitOcc ['\\', c] rest3 with
      | some (p, q) => some (r0 :: p, q)
      | none => none
    else none
  | _ => none

/-- Global replacement of the lazy two-character-delimited pattern
`\o ([\s\S]+?) \c` by `L ++ interior ++ R`.  At each position: if the
pattern matches here the match is rewritten and the scan resumes after
it; otherwise one character is copied and the scan advances by one. -/
def replDelimF (o c : Char) (L R : List Char) : Nat → List Char → List Char
  | _, [] => []
  | 0, s => s
  | fuel + 1, a :: rest =>
    match matchDelim o c (a :: rest) with
    | some (int, q) => L ++ int ++ R ++ replDelimF o c L R fuel q
    | none => a :: replDelimF o c L R fuel rest

/-- Global replacement of the literal pattern `p :: ps` by `rep`
(JS `String.replace` with a `/g` literal pattern: leftmost matches,
non-overlapping, replacement text is not rescanned). -/
def replaceAllF (p : Char) (ps rep : List Char) : Nat → List Char → List Char
  | _, [] => []
  | 0, s => s
  | fuel + 1, ch :: rest =>
    if ch = p && begins ps rest then rep ++ replaceAllF p ps rep fuel (rest.drop ps.length)
    else ch :: replaceAllF p ps rep fuel rest

/-- Step 1 of `cleanLatex`: `\[ … \]` becomes `"\n$" ++ … ++ "$\n"`
(the JS replacement `'\n$$$1$$\n'`, where `$$` escapes one dollar sign). -/
def step1 (s : List Char) : List Char :=
  replDelimF '[' ']' "\n$".data "$\n".data s.length s

/-- Step 2 of `cleanLatex`: `\( … \)` becomes `"$" ++ … ++ "$"`
(the JS replacement `'$$$1$$'`). -/
def step2 (s : List Char) : List Char :=
  replDelimF '(' ')' "$".data "$".data s.length s

/-- Step 3a: `\bold{` → `\mathbf{`. -/
def fixBold (s : List Char) : List Char :=
  replaceAllF '\\' "bold\x7b".data "\\mathbf\x7b".data s.length s

/-- Step 3b: `\sen` → `\sin`. -/
def fixSen (s : List Char) : List Char :=
  replaceAllF '\\' "sen".data "\\sin".data s.length s

/-- Step 3c: `\tg` → `\tan`. -/
def fixTg (s : List Char) : List Char :=
  replaceAllF '\\' "tg".data "\\tan".data s.length s

/-- The Normalizer `cleanLatex` of `mathUtils.ts`: the falsy-input guard,
then the two delimiter rewrites, then the three command corrections. -/
def cleanLatex (content : List Char) : List Char :=
  if content = [] then []
  else fixTg (fixSen (fixBold (step2 (step1 content))))

/-!
## The ambiguous-dollar heuristic and `trim`
-/

/-- JavaScript whitespace (`\s`, `String.prototype.trim`): space, tab, the
line terminators, vertical tab, form feed, NBSP, and the common Unicode
space scalars. -/
def isWS (c : Char) : Bool :=
  c = ' ' || c = '\t' || c = '\n' || c = '\r' ||
  c.val = 11 || c.val = 12 || c.val = 160 || c.val = 0x1680 ||
  (0x2000 ≤ c.val && c.val ≤ 0x200A) ||
  c.val = 0x2028 || c.val = 0x2029 || c.val = 0x202F || c.val = 0x205F ||
  c.val = 0x3000 || c.val = 0xFEFF

/-- Decimal digit (`\d`). -/
def isDigitB (c : Char) : Bool := '0' ≤ c && c ≤ '9'

/-- `String.prototype.trim`: drop whitespace from both ends. -/
def trim (s : List Char) : List Char :=
  ((s.dropWhile isWS).reverse.dropWhile isWS).reverse

/-- The price heuristic `/^\s?\d+([.,]\d+)?$/` of `mathUtils.ts`: an
optional single whitespace, one or more digits, optionally one `.` or `,`
followed by one or more digits, and nothing else. -/
def isMoney (t : List Char) : Bool :=
  let t1 := match t with
    | c :: r => if isWS c then r else c :: r
    | [] => []
  let ds := t1.takeWhile isDigitB
  let rest := t1.dropWhile isDigitB
  !ds.isEmpty &&
    (match rest with
     | [] => true
     | sep :: r2 =>
       (sep = '.' || sep = ',') && !r2.isEmpty && (r2.dropWhile isDigitB).isEmpty)

/-!
## The Run Splitter (`splitTextAndMath`)

Source: `normalized.split(/(\$\$[\s\S]+?\$\$|\$[^$\n]+?\$|\n)/g)`, then a
walk mapping each part to a `{type, value}` object, dropping empty parts,
trimming math interiors, and keeping price-like inline spans as literal
text.  The split-with-capture is modelled by a tokenizer whose tokens
concatenate back to the input; unmatched characters accumulate into
maximal non-empty text runs, which is exactly what the split produces once
empty parts are dropped.
-/

/-- A part produced by the splitting regex: a maximal unmatched text run, a
display span interior, an inline span interior, or a newline. -/
inductive Tok where
  | ttext : List Char → Tok
  | tmath2 : List Char → Tok
  | tmath1 : List Char → Tok
  | tbrk : Tok
deriving DecidableEq

/-- Prepend one unmatched character to a token stream, extending a leading
text run if there is one. -/
def pushText (ch : Char) : List Tok → List Tok
  | Tok.ttext t :: toks => Tok.ttext (ch :: t) :: toks
  | toks => Tok.ttext [ch] :: toks

/-- Does the display alternative `\$\$([\s\S]+?)\$\$` match at the head of
`s`?  The lazy non-empty interior ends at the first viable closing `$$`. -/
def matchBlock : List Char → Option (List Char × List Char)
  | a :: b :: r0 :: rest3 =>
    if a = '$' && b = '$' then
      match splitOcc ['$', '$'] rest3 with
      | some (p, q) => some (r0 :: p, q)
      | none => none
    else none
  | _ => none

/-- Does the inline alternative `\$([^$\n]+?)\$` match at the head of `s`?
Because the interior may not contain `$`, the lazy match is the span up to
the next `$`, valid only when non-empty and newline-free. -/
def matchInline : List Char → Option (List Char × List Char)
  | [] => none
  | a :: rest =>
    if a = '$' then
      match splitOcc ['$'] rest with
      | some (i, q) =>
        if !i.isEmpty && !(i.contains '\n') then some (i, q) else none
      | none => none
    else none

/-- The splitting regex `(\$\$[\s\S]+?\$\$|\$[^$\n]+?\$|\n)` as a scanner.
At each position the three alternatives are tried in order (display span,
inline span, literal newline); on failure one character is emitted as
text and the scan advances by one.  When the display alternative fails at
a position, the inline alternative also fails there (its interior would
have to start with `$`), so trying `matchBlock` before `matchInline`
reproduces the regex's ordered alternation exactly. -/
def tokenizeF : Nat → List Char → List Tok
  | _, [] => []
  | 0, _ => []
  | fuel + 1, c :: rest =>
    match matchBlock (c :: rest) with
    | some (x, q) => Tok.tmath2 x :: tokenizeF fuel q
    | none =>
      match matchInline (c :: rest) with
      | some (y, q) => Tok.tmath1 y :: tokenizeF fuel q
      | none =>
        if c = '\n' then Tok.tbrk :: tokenizeF fuel rest
        else pushText c (tokenizeF fuel rest)

/-- The discriminant of a segment: `'text' | 'math' | 'break'`. -/
inductive SegKind where
  | text : SegKind
  | math : SegKind
  | brk : SegKind
deriving DecidableEq

/-- A segment `{type, value}` as produced by `splitTextAndMath`
(`brk` stands for the source's `'break'`, a Lean keyword). -/
structure Seg where
  type : SegKind
  value : List Char
deriving DecidableEq

/-- The raw text a token stands for in the split input (the `part`
strings handed to the source's `forEach`). -/
def rawTok : Tok → List Char
  | Tok.ttext t => t
  | Tok.tmath2 x => '$' :: '$' :: (x ++ "$$".data)
  | Tok.tmath1 y => '$' :: (y ++ ['$'])
  | Tok.tbrk => ['\n']

/-- The body of the source's `forEach` over the split parts.  Note that
the source re-inspects each part with `startsWith`/`endsWith` rather than
remembering which alternative matched, so an unmatched run consisting
solely of dollar signs (`"$"`, `"$$"`, …) also lands in a math branch:
```
if (part === '\n')            → break
else if (part.startsWith('$$') && part.endsWith('$$'))
                              → math, value part.slice(2, -2).trim()
else if (part.startsWith('$') && part.endsWith('$'))
                              → money?  text part  :  math slice(1,-1).trim()
else                          → text part
```
`slice(i, -i)` with start past end yields the empty string, modelled by
`take` with truncated subtraction. -/
def classifyPart (part : List Char) : Seg :=
  if part = ['\n'] then ⟨SegKind.brk, []⟩
  else if begins "$$".data part && begins "$$".data part.reverse then
    ⟨SegKind.math, trim ((part.drop 2).take (part.length - 4))⟩
  else if begins "$".data part && begins "$".data part.reverse then
    if isMoney (trim ((part.drop 1).take (part.length - 2))) then
      ⟨SegKind.text, part⟩
    else ⟨SegKind.math, trim ((part.drop 1).take (part.length - 2))⟩
  else ⟨SegKind.text, part⟩

/-- The Run Splitter `splitTextAndMath` of `mathUtils.ts`. -/
def splitTextAndMath (content : List Char) : List Seg :=
  if content = [] then []
  else ((tokenizeF (cleanLatex content).length (cleanLatex content)).map
    (fun tok => classifyPart (rawTok tok)))

/-!
## The Inline Renderer (`processMathForWord`)

Source: normalize, then replace `/\$\$([\s\S]+?)\$\$/g` by the display-mode
render (error span on a thrown render error), then replace
`/\$([^$\n]+?)\$/g` on the result by the match itself when price-like and
by the inline-mode render (error span on failure) otherwise.  Replacement
text returned by a callback is inserted literally and never rescanned by
the same pass, but the second pass does scan the output of the first.
-/

/-- The error span for a failed display render:
`<span style="color: red; font-family: monospace;">[Error LaTeX: tex]</span>`. -/
def errBlockSpan (tex : List Char) : List Char :=
  "<span style=\"color: red; font-family: monospace;\">[Error LaTeX: ".data ++
    tex ++ "]</span>".data

/-- The error span for a failed inline render:
`<span style="color: red;">$tex$</span>`. -/
def errInlineSpan (tex : List Char) : List Char :=
  "<span style=\"color: red;\">$".data ++ tex ++ "$</span>".data

/-- The display pass `normalized.replace(/\$\$([\s\S]+?)\$\$/g, …)` with
render oracle `r`: each display span is replaced by `r true interior`, or
by the block error span when the renderer throws. -/
def pass1F (r : Bool → List Char → Option (List Char)) :
    Nat → List Char → List Char
  | _, [] => []
  | 0, s => s
  | fuel + 1, c :: rest =>
    match matchBlock (c :: rest) with
    | some (x, q) =>
      (match r true x with
       | some m => m
       | none => errBlockSpan x) ++ pass1F r fuel q
    | none => c :: pass1F r fuel rest

/-- The inline pass `result.replace(/\$([^$\n]+?)\$/g, …)` with render
oracle `r`: price-like spans are kept verbatim, other spans are replaced
by `r false interior` or the inline error span. -/
def pass2F (r : Bool → List Char → Option (List Char)) :
    Nat → List Char → List Char
  | _, [] => []
  | 0, s => s
  | fuel + 1, c :: rest =>
    match matchInline (c :: rest) with
    | some (i, q) =>
      (if isMoney (trim i) then '$' :: (i ++ ['$'])
       else match r false i with
         | some m => m
         | none => errInlineSpan i) ++ pass2F r fuel q
    | none => c :: pass2F r fuel rest

/-- The Inline Renderer `processMathForWord` of `mathUtils.ts`,
parameterized by the external math renderer `r`. -/
def processMathForWord (r : Bool → List Char → Option (List Char))
    (content : List Char) : List Char :=
  if content = [] then []
  else
    pass2F r (pass1F r (cleanLatex content).length (cleanLatex content)).length
      (pass1F r (cleanLatex content).length (cleanLatex content))

/-!
## Auxiliary definitions used by the verification

`joinL` reassembles the raw text of a token stream (the inverse of the
capturing split).  `segRaw` describes which raw strings a segment can
stand for: text and break segments determine theirs, a math segment's raw
form is its (trimmed) value inside either dollar delimiter with the
trimmed whitespace restored — or, for the degenerate math segments the
source produces from unmatched runs of dollar signs, that bare dollar
run.  `hasInlineSpan` says the inline alternative matches somewhere.
`renderTag`/`renderTagFail` are concrete render oracles used to exercise
the renderer: `renderTag` renders by bracketing the dollar-stripped TeX
source, `renderTagFail` fails (throws) exactly on the display expression
`a$b`.
-/

/-- Concatenation of a list of strings. -/
def joinL : List (List Char) → List Char
  | [] => []
  | a :: as => a ++ joinL as

/-- Whitespace-only string. -/
def allWS (l : List Char) : Bool := l.all isWS

/-- The raw forms a segment may stand for: a text segment's value, a
newline for a break, and for a math segment its value wrapped in `$…$` or
`$$…$$` with whitespace (lost to trimming) restored inside the
delimiters, or — for an empty value — a bare non-empty run of dollar
signs (the source classifies such unmatched runs as math). -/
def segRaw (seg : Seg) (raw : List Char) : Prop :=
  match seg.type with
  | SegKind.text => raw = seg.value
  | SegKind.brk => raw = ['\n']
  | SegKind.math =>
      (∃ l t, allWS l = true ∧ allWS t = true ∧
        (raw = '$' :: (l ++ seg.value ++ t ++ ['$']) ∨
         raw = '$' :: '$' :: (l ++ seg.value ++ t ++ "$$".data))) ∨
      (seg.value = [] ∧ raw ≠ [] ∧ ∀ ch ∈ raw, ch = '$')

/-- Does the inline alternative `\$([^$\n]+?)\$` match at some position? -/
def hasInlineSpan : List Char → Bool
  | [] => false
  | c :: rest => (matchInline (c :: rest)).isSome || hasInlineSpan rest

/-- A deterministic stand-in for a successful external renderer: brackets
the TeX source (with `$` removed, as real MathML output contains no
dollar delimiters) in `<R>…</R>` tags. -/
def renderTag : Bool → List Char → Option (List Char) :=
  fun _ t => some ("<R>".data ++ t.filter (fun ch => !(ch = '$' : Bool)) ++ "</R>".data)

/-- The same renderer, except that it throws on the display expression
`a$b` — the oracle for a single failing fragment. -/
def renderTagFail : Bool → List Char → Option (List Char) :=
  fun b t => if b = true ∧ t = "a$b".data then none else renderTag b t

/-!
## Basic lemmas about `begins`, `occursB` and `splitOcc`
-/

theorem begins_cons (p c : Char) (ps cs : List Char) :
    begins (p :: ps) (c :: cs) = ((p = c : Bool) && begins ps cs) := rfl

theorem begins_eq_append {pat s : List Char} (h : begins pat s = true) :
    s = pat ++ s.drop pat.length := by
  induction pat generalizing s with
  | nil => simp
  | cons p ps ih =>
    cases s with
    | nil => simp [begins] at h
    | cons c cs =>
      rw [begins_cons, Bool.and_eq_true] at h
      obtain ⟨h1, h2⟩ := h
      have : p = c := by simpa using h1
      subst this
      simpa using ih h2

theorem occursB_nil (pat : List Char) : occursB pat [] = begins pat [] := rfl

theorem occursB_cons (pat : List Char) (c : Char) (cs : List Char) :
    occursB pat (c :: cs) = (begins pat (c :: cs) || occursB pat cs) := rfl

theorem occursB_of_begins {pat s : List Char} (h : begins pat s = true) :
    occursB pat s = true := by
  cases s with
  | nil => simpa [occursB] using h
  | cons c cs => simp [occursB_cons, h]

theorem occursB_of_tail {pat : List Char} {c : Char} {cs : List Char}
    (h : occursB pat cs = true) : occursB pat (c :: cs) = true := by
  simp [occursB_cons, h]

theorem occursB_of_drop {pat s : List Char} {k : Nat}
    (h : occursB pat (s.drop k) = true) : occursB pat s = true := by
  induction k generalizing s with
  | zero => simpa using h
  | succ n ih =>
    cases s with
    | nil => simpa using h
    | cons c cs => exact occursB_of_tail (ih (by simpa using h))

theorem begins_head_mem {p : Char} {ps s : List Char}
    (h : begins (p :: ps) s = true) : p ∈ s := by
  cases s with
  | nil => simp [begins] at h
  | cons c cs =>
    rw [begins_cons, Bool.and_eq_true] at h
    have : p = c := by simpa using h.1
    simp [this]

theorem occursB_head_mem {p : Char} {ps s : List Char}
    (h : occursB (p :: ps) s = true) : p ∈ s := by
  induction s with
  | nil => simp [occursB, begins] at h
  | cons c cs ih =>
    rw [occursB_cons, Bool.or_eq_true] at h
    rcases h with h | h
    · exact begins_head_mem h
    · exact List.mem_cons_of_mem _ (ih h)

theorem occursB_false_of_head_notMem {p : Char} {ps s : List Char}
    (h : p ∉ s) : occursB (p :: ps) s = false := by
  cases hb : occursB (p :: ps) s with
  | false => rfl
  | true => exact absurd (occursB_head_mem hb) h

theorem splitOcc_eq {pat s a b : List Char}
    (h : splitOcc pat s = some (a, b)) : s = a ++ pat ++ b := by
  induction s generalizing a with
  | nil =>
    simp only [splitOcc] at h
    split at h
    · rename_i hb
      have : pat = [] := by cases pat with
        | nil => rfl
        | cons p ps => simp [begins] at hb
      simp_all
    · exact absurd h (by simp)
  | cons c cs ih =>
    simp only [splitOcc] at h
    split at h
    · rename_i hb
      have he := begins_eq_append hb
      simp only [Option.some_inj, Prod.mk.injEq] at h
      obtain ⟨ha, hbb⟩ := h
      subst ha; subst hbb
      simpa using he
    · cases hs : splitOcc pat cs with
      | none => rw [hs] at h; simp at h
      | some ab =>
        obtain ⟨a', b'⟩ := ab
        rw [hs] at h
        simp only [Option.some_inj, Prod.mk.injEq] at h
        obtain ⟨ha, hbb⟩ := h
        subst hbb
        have := ih (a := a') hs
        subst ha
        simp [this]

theorem splitOcc_len {pat s a b : List Char} (hp : pat ≠ [])
    (h : splitOcc pat s = some (a, b)) : b.length + 1 ≤ s.length := by
  have he := splitOcc_eq h
  have : s.length = a.length + pat.length + b.length := by
    rw [he]; simp [List.length_append]; omega
  have hpl : 1 ≤ pat.length := by
    cases pat with
    | nil => exact absurd rfl hp
    | cons _ _ => simp
  omega

theorem mismatchB_begins {P rep : List Char} (h : mismatchB P rep = true)
    (Z : List Char) : begins P (rep ++ Z) = false := by
  induction P generalizing rep with
  | nil => simp [mismatchB] at h
  | cons p ps ih =>
    cases rep with
    | nil => simp [mismatchB] at h
    | cons r rs =>
      simp only [mismatchB, Bool.or_eq_true] at h
      rcases h with h | h
      · simp only [List.cons_append, begins_cons]
        have : (p = r : Bool) = false := by
          cases hpr : (p = r : Bool) with
          | false => rfl
          | true => rw [hpr] at h; simp at h
        simp [this]
      · simp [List.cons_append, begins_cons, ih h]

/-!
## Structure of the three matchers
-/

theorem matchDelim_some {o c : Char} {s int q : List Char}
    (h : matchDelim o c s = some (int, q)) :
    s = '\\' :: o :: (int ++ '\\' :: c :: q) ∧ int ≠ [] := by
  match s with
  | [] => simp [matchDelim] at h
  | [a] => simp [matchDelim] at h
  | [a, b] => simp [matchDelim] at h
  | a :: b :: r0 :: rest3 =>
    simp only [matchDelim] at h
    split at h
    · rename_i hab
      rw [Bool.and_eq_true] at hab
      have ha : a = '\\' := by simpa using hab.1
      have hb : b = o := by simpa using hab.2
      cases hso : splitOcc ['\\', c] rest3 with
      | none => rw [hso] at h; simp at h
      | some pq =>
        obtain ⟨p, q'⟩ := pq
        rw [hso] at h
        simp only [Option.some_inj, Prod.mk.injEq] at h
        obtain ⟨hi, hq⟩ := h
        have he := splitOcc_eq hso
        subst ha hb hq
        refine ⟨?_, by simp [← hi]⟩
        rw [← hi]
        simp [he]
    · simp at h

theorem matchDelim_some_len {o c : Char} {s int q : List Char}
    (h : matchDelim o c s = some (int, q)) : q.length + 1 ≤ s.length := by
  have := (matchDelim_some h).1
  rw [this]
  simp [List.length_append]
  omega

theorem matchBlock_some {s x q : List Char}
    (h : matchBlock s = some (x, q)) :
    s = '$' :: '$' :: (x ++ '$' :: '$' :: q) ∧ x ≠ [] := by
  match s with
  | [] => simp [matchBlock] at h
  | [a] => simp [matchBlock] at h
  | [a, b] => simp [matchBlock] at h
  | a :: b :: r0 :: rest3 =>
    simp only [matchBlock] at h
    split at h
    · rename_i hab
      rw [Bool.and_eq_true] at hab
      have ha : a = '$' := by simpa using hab.1
      have hb : b = '$' := by simpa using hab.2
      cases hso : splitOcc ['$', '$'] rest3 with
      | none => rw [hso] at h; simp at h
      | some pq =>
        obtain ⟨p, q'⟩ := pq
        rw [hso] at h
        simp only [Option.some_inj, Prod.mk.injEq] at h
        obtain ⟨hi, hq⟩ := h
        have he := splitOcc_eq hso
        subst ha hb hq
        refine ⟨?_, by simp [← hi]⟩
        rw [← hi]
        simp [he]
    · simp at h

theorem matchBlock_some_len {s x q : List Char}
    (h : matchBlock s = some (x, q)) : q.length + 1 ≤ s.length := by
  have := (matchBlock_some h).1
  rw [this]
  simp [List.length_append]
  omega

theorem matchInline_some {s i q : List Char}
    (h : matchInline s = some (i, q)) :
    s = '$' :: (i ++ '$' :: q) ∧ i ≠ [] ∧ i.contains '\n' = false := by
  match s with
  | [] => simp [matchInline] at h
  | a :: rest =>
    simp only [matchInline] at h
    split at h
    · rename_i ha
      cases hso : splitOcc ['$'] rest with
      | none => rw [hso] at h; simp at h
      | some iq =>
        obtain ⟨i', q'⟩ := iq
        rw [hso] at h
        have h2 : (if (!i'.isEmpty && !(i'.contains '\n')) = true
            then some (i', q') else none) = some (i, q) := h
        by_cases hok : (!i'.isEmpty && !(i'.contains '\n')) = true
        · rw [if_pos hok] at h2
          simp only [Option.some_inj, Prod.mk.injEq] at h2
          obtain ⟨hi, hq⟩ := h2
          have he := splitOcc_eq hso
          rw [Bool.and_eq_true] at hok
          subst ha hi hq
          refine ⟨by simp [he], ?_, ?_⟩
          · simpa using hok.1
          · simpa using hok.2
        · rw [if_neg hok] at h2
          simp at h2
    · simp at h

theorem matchInline_some_len {s i q : List Char}
    (h : matchInline s = some (i, q)) : q.length + 1 ≤ s.length := by
  have := (matchInline_some h).1
  rw [this]
  simp [List.length_append]
  omega

/-!
## Fuel irrelevance

Each scanner is defined with a fuel argument to keep the recursion
structural; with fuel at least the input length the fuel never runs out,
so any two sufficient fuels give the same result.
-/

theorem replDelimF_fuel (o c : Char) (L R : List Char) :
    ∀ f s g, s.length ≤ f → s.length ≤ g →
      replDelimF o c L R f s = replDelimF o c L R g s := by
  intro f
  induction f with
  | zero =>
    intro s g hf _
    cases s with
    | nil => cases g <;> rfl
    | cons a rest => simp at hf
  | succ f ih =>
    intro s g hf hg
    cases s with
    | nil => cases g <;> rfl
    | cons a rest =>
      cases g with
      | zero => simp at hg
      | succ g' =>
        have hrf : rest.length ≤ f := by simp at hf; omega
        have hrg : rest.length ≤ g' := by simp at hg; omega
        simp only [replDelimF]
        cases hm : matchDelim o c (a :: rest) with
        | none =>
          show a :: replDelimF o c L R f rest = a :: replDelimF o c L R g' rest
          rw [ih _ _ hrf hrg]
        | some iq =>
          obtain ⟨int, q⟩ := iq
          have hq := matchDelim_some_len hm
          simp only [List.length_cons] at hq hf hg
          show L ++ int ++ R ++ replDelimF o c L R f q =
            L ++ int ++ R ++ replDelimF o c L R g' q
          rw [ih q g' (by omega) (by omega)]

theorem replaceAllF_fuel (p : Char) (ps rep : List Char) :
    ∀ f s g, s.length ≤ f → s.length ≤ g →
      replaceAllF p ps rep f s = replaceAllF p ps rep g s := by
  intro f
  induction f with
  | zero =>
    intro s g hf _
    cases s with
    | nil => cases g <;> rfl
    | cons a rest => simp at hf
  | succ f ih =>
    intro s g hf hg
    cases s with
    | nil => cases g <;> rfl
    | cons a rest =>
      cases g with
      | zero => simp at hg
      | succ g' =>
        have hrf : rest.length ≤ f := by simp at hf; omega
        have hrg : rest.length ≤ g' := by simp at hg; omega
        simp only [replaceAllF]
        by_cases hm : (a = p && begins ps rest) = true
        · rw [if_pos hm, if_pos hm]
          have hd : (rest.drop ps.length).length ≤ rest.length := by
            simp [List.length_drop]
          rw [ih (rest.drop ps.length) g' (by omega) (by omega)]
        · rw [if_neg hm, if_neg hm]
          rw [ih _ _ hrf hrg]

theorem tokenizeF_fuel :
    ∀ f s g, s.length ≤ f → s.length ≤ g → tokenizeF f s = tokenizeF g s := by
  intro f
  induction f with
  | zero =>
    intro s g hf _
    cases s with
    | nil => cases g <;> rfl
    | cons a rest => simp at hf
  | succ f ih =>
    intro s g hf hg
    cases s with
    | nil => cases g <;> rfl
    | cons a rest =>
      cases g with
      | zero => simp at hg
      | succ g' =>
        have hrf : rest.length ≤ f := by simp at hf; omega
        have hrg : rest.length ≤ g' := by simp at hg; omega
        simp only [tokenizeF]
        cases hb : matchBlock (a :: rest) with
        | some xq =>
          obtain ⟨x, q⟩ := xq
          have hq := matchBlock_some_len hb
          simp only [List.length_cons] at hq hf hg
          show Tok.tmath2 x :: tokenizeF f q = Tok.tmath2 x :: tokenizeF g' q
          rw [ih q g' (by omega) (by omega)]
        | none =>
          cases hi : matchInline (a :: rest) with
          | some iq =>
            obtain ⟨i, q⟩ := iq
            have hq := matchInline_some_len hi
            simp only [List.length_cons] at hq hf hg
            show Tok.tmath1 i :: tokenizeF f q = Tok.tmath1 i :: tokenizeF g' q
            rw [ih q g' (by omega) (by omega)]
          | none =>
            show (if a = '\n' then Tok.tbrk :: tokenizeF f rest
                  else pushText a (tokenizeF f rest)) =
              (if a = '\n' then Tok.tbrk :: tokenizeF g' rest
                  else pushText a (tokenizeF g' rest))
            rw [ih _ _ hrf hrg]

theorem pass1F_fuel (r : Bool → List Char → Option (List Char)) :
    ∀ f s g, s.length ≤ f → s.length ≤ g → pass1F r f s = pass1F r g s := by
  intro f
  induction f with
  | zero =>
    intro s g hf _
    cases s with
    | nil => cases g <;> rfl
    | cons a rest => simp at hf
  | succ f ih =>
    intro s g hf hg
    cases s with
    | nil => cases g <;> rfl
    | cons a rest =>
      cases g with
      | zero => simp at hg
      | succ g' =>
        have hrf : rest.length ≤ f := by simp at hf; omega
        have hrg : rest.length ≤ g' := by simp at hg; omega
        simp only [pass1F]
        cases hb : matchBlock (a :: rest) with
        | some xq =>
          obtain ⟨x, q⟩ := xq
          have hq := matchBlock_some_len hb
          simp only [List.length_cons] at hq hf hg
          show (match r true x with
                | some m => m
                | none => errBlockSpan x) ++ pass1F r f q =
            (match r true x with
                | some m => m
                | none => errBlockSpan x) ++ pass1F r g' q
          rw [ih q g' (by omega) (by omega)]
        | none =>
          show a :: pass1F r f rest = a :: pass1F r g' rest
          rw [ih _ _ hrf hrg]

theorem pass2F_fuel (r : Bool → List Char → Option (List Char)) :
    ∀ f s g, s.length ≤ f → s.length ≤ g → pass2F r f s = pass2F r g s := by
  intro f
  induction f with
  | zero =>
    intro s g hf _
    cases s with
    | nil => cases g <;> rfl
    | cons a rest => simp at hf
  | succ f ih =>
    intro s g hf hg
    cases s with
    | nil => cases g <;> rfl
    | cons a rest =>
      cases g with
      | zero => simp at hg
      | succ g' =>
        have hrf : rest.length ≤ f := by simp at hf; omega
        have hrg : rest.length ≤ g' := by simp at hg; omega
        simp only [pass2F]
        cases hi : matchInline (a :: rest) with
        | some iq =>
          obtain ⟨i, q⟩ := iq
          have hq := matchInline_some_len hi
          simp only [List.length_cons] at hq hf hg
          show (if isMoney (trim i) then '$' :: (i ++ ['$'])
                else match r false i with
                  | some m => m
                  | none => errInlineSpan i) ++ pass2F r f q =
            (if isMoney (trim i) then '$' :: (i ++ ['$'])
                else match r false i with
                  | some m => m
                  | none => errInlineSpan i) ++ pass2F r g' q
          rw [ih q g' (by omega) (by omega)]
        | none =>
          show a :: pass2F r f rest = a :: pass2F r g' rest
          rw [ih _ _ hrf hrg]

/-!
## Literal replacement: identity, elimination and preservation

All three correction patterns (`\bold{`, `\sen`, `\tg`) and replacements
(`\mathbf{`, `\sin`, `\tan`) start with a backslash, contain no other
backslash, and each pattern disagrees with its own and the other
replacements at an early position.  This yields: a replacement pass whose
pattern does not occur is the identity; a pass eliminates every occurrence
of its own pattern; and a pass cannot introduce an occurrence of any of
the three patterns.
-/

theorem begins_comm_head {a p : Char} {ps rest : List Char} :
    (a = p && begins ps rest) = begins (p :: ps) (a :: rest) := by
  rw [begins_cons]
  by_cases h : a = p
  · subst h; simp
  · have h' : ¬(p = a) := fun hh => h hh.symm
    simp [h, h']

theorem replaceAllF_id {p : Char} {ps rep : List Char} :
    ∀ fuel s, occursB (p :: ps) s = false → replaceAllF p ps rep fuel s = s := by
  intro fuel
  induction fuel with
  | zero => intro s _; cases s <;> rfl
  | succ fuel ih =>
    intro s h
    cases s with
    | nil => rfl
    | cons a rest =>
      rw [occursB_cons, Bool.or_eq_false_iff] at h
      obtain ⟨h1, h2⟩ := h
      simp only [replaceAllF]
      rw [if_neg (by rw [begins_comm_head, h1]; simp)]
      rw [ih rest h2]

theorem begins_transfer {ps rep₂ : List Char} {pch : Char} :
    ∀ fuel s Q, Q ≠ [] → '\\' ∉ Q →
      begins Q (replaceAllF pch ps ('\\' :: rep₂) fuel s) = true →
      begins Q s = true := by
  intro fuel
  induction fuel with
  | zero =>
    intro s Q _ _ h
    cases s with
    | nil => exact h
    | cons a rest => exact h
  | succ fuel ih =>
    intro s Q hQ hQb h
    cases s with
    | nil => exact h
    | cons a rest =>
      simp only [replaceAllF] at h
      by_cases hm : (a = pch && begins ps rest) = true
      · rw [if_pos hm] at h
        cases Q with
        | nil => exact absurd rfl hQ
        | cons q₀ Q' =>
          rw [List.cons_append, begins_cons, Bool.and_eq_true] at h
          have : q₀ = '\\' := by simpa using h.1
          exact absurd (this ▸ List.mem_cons_self q₀ Q') (this ▸ hQb)
      · rw [if_neg hm] at h
        cases Q with
        | nil => exact absurd rfl hQ
        | cons q₀ Q' =>
          rw [begins_cons, Bool.and_eq_true] at h
          obtain ⟨hqa, h'⟩ := h
          cases Q' with
          | nil => rw [begins_cons, hqa]; simp [begins]
          | cons q₁ Q'' =>
            have := ih rest (q₁ :: Q'') (by simp) (fun hm' => hQb (List.mem_cons_of_mem _ hm')) h'
            rw [begins_cons, hqa, this]
            simp

theorem occursB_append_head {p : Char} {P₁ : List Char} :
    ∀ a Z, p ∉ a → occursB (p :: P₁) (a ++ Z) = occursB (p :: P₁) Z := by
  intro a
  induction a with
  | nil => intro Z _; simp
  | cons c cs ih =>
    intro Z ha
    rw [List.cons_append, occursB_cons]
    have hc : begins (p :: P₁) (c :: (cs ++ Z)) = false := by
      rw [begins_cons]
      have : (p = c : Bool) = false := by
        simp only [decide_eq_false_iff_not]
        intro hpc
        exact ha (by simp [hpc])
      simp [this]
    rw [hc]
    simp only [Bool.false_or]
    exact ih Z (fun hm => ha (List.mem_cons_of_mem _ hm))

theorem occursB_replaceAllF_self {P₁ rep₂ : List Char}
    (hP₁ : P₁ ≠ []) (hP₁b : '\\' ∉ P₁) (hrb : '\\' ∉ rep₂)
    (hmm : mismatchB ('\\' :: P₁) ('\\' :: rep₂) = true) :
    ∀ fuel s, s.length ≤ fuel →
      occursB ('\\' :: P₁) (replaceAllF '\\' P₁ ('\\' :: rep₂) fuel s) = false := by
  intro fuel
  induction fuel with
  | zero =>
    intro s hf
    cases s with
    | nil => simp [occursB, begins]
    | cons a rest => simp at hf
  | succ fuel ih =>
    intro s hf
    cases s with
    | nil => simp [occursB, begins]
    | cons a rest =>
      have hrest : rest.length ≤ fuel := by simp at hf; omega
      simp only [replaceAllF]
      by_cases hm : (a = '\\' && begins P₁ rest) = true
      · rw [if_pos hm]
        rw [List.cons_append, occursB_cons]
        rw [show ('\\' :: (rep₂ ++ replaceAllF '\\' P₁ ('\\' :: rep₂) fuel (rest.drop P₁.length))) =
          ('\\' :: rep₂) ++ replaceAllF '\\' P₁ ('\\' :: rep₂) fuel (rest.drop P₁.length) from by simp]
        rw [mismatchB_begins hmm]
        rw [occursB_append_head rep₂ _ hrb]
        have hd : (rest.drop P₁.length).length ≤ fuel := by
          have : (rest.drop P₁.length).length ≤ rest.length := by simp [List.length_drop]
          omega
        rw [ih _ hd]
        simp
      · rw [if_neg hm]
        rw [occursB_cons]
        rw [ih rest hrest]
        have hb : begins ('\\' :: P₁) (a :: replaceAllF '\\' P₁ ('\\' :: rep₂) fuel rest) = false := by
          rw [begins_cons]
          by_cases ha : a = '\\'
          · subst ha
            cases hbp : begins P₁ (replaceAllF '\\' P₁ ('\\' :: rep₂) fuel rest) with
            | false => simp [hbp]
            | true =>
              exfalso
              have hbr := begins_transfer fuel rest P₁ hP₁ hP₁b hbp
              exact hm (by simp [hbr])
          · have : ('\\' = a : Bool) = false := by
              simp only [decide_eq_false_iff_not]
              exact fun hh => ha hh.symm
            simp [this]
        rw [hb]
        simp

theorem occursB_drop_false {P s : List Char} {k : Nat}
    (h : occursB P s = false) : occursB P (s.drop k) = false := by
  cases hd : occursB P (s.drop k) with
  | false => rfl
  | true => exact absurd h (by rw [occursB_of_drop hd]; simp)

theorem occursB_replaceAllF_other {P₁ ps₂ rep₂ : List Char}
    (hP₁ : P₁ ≠ []) (hP₁b : '\\' ∉ P₁) (hrb : '\\' ∉ rep₂)
    (hmm : mismatchB ('\\' :: P₁) ('\\' :: rep₂) = true) :
    ∀ fuel s, occursB ('\\' :: P₁) s = false →
      occursB ('\\' :: P₁) (replaceAllF '\\' ps₂ ('\\' :: rep₂) fuel s) = false := by
  intro fuel
  induction fuel with
  | zero =>
    intro s h
    cases s with
    | nil => simp [occursB, begins]
    | cons a rest => exact h
  | succ fuel ih =>
    intro s h
    cases s with
    | nil => simp [occursB, begins]
    | cons a rest =>
      rw [occursB_cons, Bool.or_eq_false_iff] at h
      obtain ⟨h1, h2⟩ := h
      simp only [replaceAllF]
      by_cases hm : (a = '\\' && begins ps₂ rest) = true
      · rw [if_pos hm]
        rw [List.cons_append, occursB_cons]
        rw [show ('\\' :: (rep₂ ++ replaceAllF '\\' ps₂ ('\\' :: rep₂) fuel (rest.drop ps₂.length))) =
          ('\\' :: rep₂) ++ replaceAllF '\\' ps₂ ('\\' :: rep₂) fuel (rest.drop ps₂.length) from by simp]
        rw [mismatchB_begins hmm]
        rw [occursB_append_head rep₂ _ hrb]
        rw [ih _ (occursB_drop_false h2)]
        simp
      · rw [if_neg hm]
        rw [occursB_cons]
        rw [ih rest h2]
        have hb : begins ('\\' :: P₁) (a :: replaceAllF '\\' ps₂ ('\\' :: rep₂) fuel rest) = false := by
          rw [begins_cons]
          by_cases ha : a = '\\'
          · subst ha
            cases hbp : begins P₁ (replaceAllF '\\' ps₂ ('\\' :: rep₂) fuel rest) with
            | false => simp [hbp]
            | true =>
              exfalso
              have hbr := begins_transfer fuel rest P₁ hP₁ hP₁b hbp
              rw [begins_cons] at h1
              simp [hbr] at h1
          · have : ('\\' = a : Bool) = false := by
              simp only [decide_eq_false_iff_not]
              exact fun hh => ha hh.symm
            simp [this]
        rw [hb]
        simp

/-!
## No correction pattern survives `cleanLatex`

The last three passes of `cleanLatex` remove every occurrence of their own
pattern and cannot introduce occurrences of any of the three patterns, so
`cleanLatex s` contains no `\bold{`, `\sen` or `\tg`.
-/

theorem fixBold_no_bold (s : List Char) :
    occursB "\\bold\x7b".data (fixBold s) = false :=
  occursB_replaceAllF_self (by decide) (by decide) (by decide) (by decide)
    s.length s (le_refl _)

theorem fixSen_no_sen (s : List Char) :
    occursB "\\sen".data (fixSen s) = false :=
  occursB_replaceAllF_self (by decide) (by decide) (by decide) (by decide)
    s.length s (le_refl _)

theorem fixTg_no_tg (s : List Char) :
    occursB "\\tg".data (fixTg s) = false :=
  occursB_replaceAllF_self (by decide) (by decide) (by decide) (by decide)
    s.length s (le_refl _)

theorem cleanLatex_no_bold (s : List Char) :
    occursB "\\bold\x7b".data (cleanLatex s) = false := by
  rw [cleanLatex]
  by_cases hs : s = []
  · rw [if_pos hs]; decide
  · rw [if_neg hs]
    apply occursB_replaceAllF_other (by decide) (by decide) (by decide) (by decide)
    apply occursB_replaceAllF_other (by decide) (by decide) (by decide) (by decide)
    exact fixBold_no_bold _

theorem cleanLatex_no_sen (s : List Char) :
    occursB "\\sen".data (cleanLatex s) = false := by
  rw [cleanLatex]
  by_cases hs : s = []
  · rw [if_pos hs]; decide
  · rw [if_neg hs]
    apply occursB_replaceAllF_other (by decide) (by decide) (by decide) (by decide)
    exact fixSen_no_sen _

theorem cleanLatex_no_tg (s : List Char) :
    occursB "\\tg".data (cleanLatex s) = false :=
  by
  rw [cleanLatex]
  by_cases hs : s = []
  · rw [if_pos hs]; decide
  · rw [if_neg hs]
    exact fixTg_no_tg _

/-!
## Identity of the delimiter passes without an opener
-/

theorem matchDelim_none {o c : Char} {s : List Char}
    (h : begins ['\\', o] s = false) : matchDelim o c s = none := by
  match s with
  | [] => rfl
  | [a] => rfl
  | [a, b] => rfl
  | a :: b :: r0 :: rest3 =>
    simp only [matchDelim]
    have hc : (a = '\\' && b = o) = false := by
      by_cases ha : a = '\\'
      · by_cases hb : b = o
        · exfalso; subst ha hb; simp [begins] at h
        · simp [hb]
      · simp [ha]
    rw [hc]
    simp

theorem replDelimF_id {o c : Char} {L R : List Char} :
    ∀ fuel s, occursB ['\\', o] s = false → replDelimF o c L R fuel s = s := by
  intro fuel
  induction fuel with
  | zero => intro s _; cases s <;> rfl
  | succ fuel ih =>
    intro s h
    cases s with
    | nil => rfl
    | cons a rest =>
      rw [occursB_cons, Bool.or_eq_false_iff] at h
      obtain ⟨h1, h2⟩ := h
      simp only [replDelimF]
      rw [matchDelim_none h1]
      rw [ih rest h2]

/-!
## First-occurrence lemmas

`splitOcc` finds a planted occurrence when no earlier one exists; the side
conditions rule out occurrences inside the prefix and occurrences
straddling the boundary.
-/

theorem occursB_append_single {x y z : Char} :
    ∀ m : List Char, occursB [x, y] m = false → (z ≠ y ∨ x ∉ m) →
      occursB [x, y] (m ++ [z]) = false := by
  intro m
  induction m with
  | nil =>
    intro _ _
    simp [occursB, begins]
  | cons c cs ih =>
    intro h hz
    rw [occursB_cons, Bool.or_eq_false_iff] at h
    obtain ⟨h1, h2⟩ := h
    rw [List.cons_append, occursB_cons]
    have hz' : z ≠ y ∨ x ∉ cs := by
      rcases hz with hz | hz
      · exact Or.inl hz
      · exact Or.inr (fun hm => hz (List.mem_cons_of_mem _ hm))
    rw [ih h2 hz']
    have hb : begins [x, y] (c :: (cs ++ [z])) = false := by
      cases cs with
      | nil =>
        simp only [List.nil_append]
        rw [begins_cons]
        rcases hz with hz | hz
        · have : (y = z : Bool) = false := by
            simp only [decide_eq_false_iff_not]
            exact fun hh => hz hh.symm
          simp [begins, this]
        · have : (x = c : Bool) = false := by
            simp only [decide_eq_false_iff_not]
            intro hh
            exact hz (by simp [hh])
          simp [this]
      | cons d ds =>
        rw [begins_cons] at h1 ⊢
        simp only [List.cons_append]
        rw [begins_cons] at h1 ⊢
        simpa [begins] using (by simpa [begins] using h1)
    rw [hb]
    simp

theorem splitOcc_first2 {x y : Char} :
    ∀ m r : List Char, occursB [x, y] (m ++ [x]) = false →
      splitOcc [x, y] (m ++ x :: y :: r) = some (m, r) := by
  intro m
  induction m with
  | nil =>
    intro r _
    simp only [List.nil_append, splitOcc]
    rw [if_pos (by simp [begins])]
    simp
  | cons c cs ih =>
    intro r h
    rw [List.cons_append, occursB_cons, Bool.or_eq_false_iff] at h
    obtain ⟨h1, h2⟩ := h
    simp only [List.cons_append, splitOcc]
    have hb : begins [x, y] (c :: (cs ++ x :: y :: r)) = false := by
      cases cs with
      | nil =>
        rw [begins_cons]
        simp only [List.nil_append] at h1 ⊢
        rw [begins_cons] at h1
        simpa [begins] using (by simpa [begins] using h1)
      | cons d ds =>
        rw [begins_cons]
        simp only [List.cons_append] at h1 ⊢
        rw [begins_cons] at h1
        simpa [begins] using (by simpa [begins] using h1)
    rw [if_neg (by simp [hb])]
    simp only [List.append_eq]
    rw [ih r h2]

theorem splitOcc_first1 {x : Char} :
    ∀ m r : List Char, x ∉ m → splitOcc [x] (m ++ x :: r) = some (m, r) := by
  intro m
  induction m with
  | nil =>
    intro r _
    simp only [List.nil_append, splitOcc]
    rw [if_pos (by simp [begins])]
    simp
  | cons c cs ih =>
    intro r h
    simp only [List.cons_append, splitOcc]
    have hb : begins [x] (c :: (cs ++ x :: r)) = false := by
      rw [begins_cons]
      have : (x = c : Bool) = false := by
        simp only [decide_eq_false_iff_not]
        intro hh
        exact h (by simp [hh])
      simp [this]
    rw [if_neg (by simp [hb])]
    simp only [List.append_eq]
    rw [ih r (fun hm => h (List.mem_cons_of_mem _ hm))]

/-!
## The delimiter pass at a planted span
-/

theorem matchDelim_at_span {o c : Char} {m rest : List Char}
    (hc : c ≠ '\\') (hm : m ≠ []) (hocc : occursB ['\\', c] m = false) :
    matchDelim o c ('\\' :: o :: (m ++ '\\' :: c :: rest)) = some (m, rest) := by
  cases m with
  | nil => exact absurd rfl hm
  | cons m₀ m' =>
    simp only [List.cons_append, matchDelim]
    rw [if_pos (by simp)]
    rw [occursB_cons, Bool.or_eq_false_iff] at hocc
    have hso := splitOcc_first2 m' rest
      (occursB_append_single m' hocc.2 (Or.inl (fun hh => hc hh.symm)))
    rw [hso]

theorem replDelimF_span {o c : Char} {L R : List Char}
    (ho : o ≠ '\\') (hc : c ≠ '\\') :
    ∀ fuel pre m rest,
      (pre ++ '\\' :: o :: (m ++ '\\' :: c :: rest)).length ≤ fuel →
      occursB ['\\', o] pre = false →
      m ≠ [] →
      occursB ['\\', c] m = false →
      replDelimF o c L R fuel (pre ++ '\\' :: o :: (m ++ '\\' :: c :: rest)) =
        pre ++ L ++ m ++ R ++ replDelimF o c L R rest.length rest := by
  intro fuel
  induction fuel with
  | zero =>
    intro pre m rest hf _ _ _
    exfalso
    simp [List.length_append] at hf
  | succ fuel ih =>
    intro pre m rest hf hpre hm hocc
    cases pre with
    | nil =>
      simp only [List.nil_append] at hf ⊢
      simp only [replDelimF]
      rw [matchDelim_at_span hc hm hocc]
      have hr : rest.length ≤ fuel := by
        simp [List.length_append] at hf
        omega
      show L ++ m ++ R ++ replDelimF o c L R fuel rest =
        L ++ m ++ R ++ replDelimF o c L R rest.length rest
      rw [replDelimF_fuel o c L R fuel rest rest.length hr (le_refl _)]
    | cons p₀ pre' =>
      have hf' : (pre' ++ '\\' :: o :: (m ++ '\\' :: c :: rest)).length ≤ fuel := by
        simp [List.length_append] at hf ⊢
        omega
      rw [occursB_cons, Bool.or_eq_false_iff] at hpre
      obtain ⟨hp1, hp2⟩ := hpre
      simp only [List.cons_append, replDelimF]
      have hnb : begins ['\\', o] (p₀ :: (pre' ++ '\\' :: o :: (m ++ '\\' :: c :: rest))) = false := by
        cases pre' with
        | nil =>
          rw [begins_cons]
          have : (o = '\\' : Bool) = false := by
            simp only [decide_eq_false_iff_not]
            exact ho
          simp [begins, this]
        | cons d ds =>
          rw [begins_cons]
          simp only [List.cons_append]
          rw [begins_cons] at hp1
          simpa [begins] using (by simpa [begins] using hp1)
      simp only [List.append_eq]
      rw [matchDelim_none hnb]
      show p₀ :: replDelimF o c L R fuel (pre' ++ '\\' :: o :: (m ++ '\\' :: c :: rest)) =
        p₀ :: pre' ++ L ++ m ++ R ++ replDelimF o c L R rest.length rest
      rw [ih pre' m rest hf' hp2 hm hocc]
      simp

/-!
## Claim C1 — legacy display conversion
-/

/-- C1: evaluating the Normalizer at the failing input `\[x^2\]`.  The
source's own comment says the rewrite produces `$$ … $$`, but the JS
replacement string `'\n$$$1$$\n'` escapes each `$$` to a single dollar,
so the code produces `\n$x^2$\n`: a single-dollar span flanked by
newlines, with no `$$` anywhere and no `\[`/`\]` remaining. -/
theorem cleanLatex_display_eval :
    cleanLatex "\\[x^2\\]".data = "\n$x^2$\n".data ∧
    occursB "$$".data (cleanLatex "\\[x^2\\]".data) = false ∧
    occursB "\\[".data (cleanLatex "\\[x^2\\]".data) = false ∧
    occursB "\\]".data (cleanLatex "\\[x^2\\]".data) = false :=
  ⟨by decide, by decide, by decide, by decide⟩

/-!
## Claim C2 — legacy inline conversion
-/

/-- C2 (counterexample): the claim says `\(x\)` becomes `$$x$$`; the code
produces the single-dollar span `$x$` (the JS replacement `'$$$1$$'`
escapes each `$$` to one dollar). -/
theorem cleanLatex_inline_single_dollar_cex :
    cleanLatex "\\(x\\)".data = "$x$".data ∧
    cleanLatex "\\(x\\)".data ≠ "$$x$$".data :=
  ⟨by decide, by decide⟩

/-- C2 (amended): a legacy inline span `\( m \)` in general position is
rewritten to `$ m $` — single dollars, no added newlines — while the
prefix is copied verbatim and the suffix is processed recursively.  The
hypotheses say: no legacy display opener anywhere (step 1 is then the
identity), no earlier inline opener in the prefix, a non-empty interior
with no inline closer (so the planted closer is the lazy match), and no
correction-table pattern in the rewritten string (step 3 is then the
identity). -/
theorem cleanLatex_inline_span (pre m rest : List Char)
    (h0 : occursB "\\[".data (pre ++ '\\' :: '(' :: (m ++ '\\' :: ')' :: rest)) = false)
    (h1 : occursB "\\(".data pre = false)
    (h2 : m ≠ [])
    (h3 : occursB "\\)".data m = false)
    (h4 : occursB "\\bold\x7b".data (pre ++ "$".data ++ m ++ "$".data ++ step2 rest) = false)
    (h5 : occursB "\\sen".data (pre ++ "$".data ++ m ++ "$".data ++ step2 rest) = false)
    (h6 : occursB "\\tg".data (pre ++ "$".data ++ m ++ "$".data ++ step2 rest) = false) :
    cleanLatex (pre ++ '\\' :: '(' :: (m ++ '\\' :: ')' :: rest)) =
      pre ++ "$".data ++ m ++ "$".data ++ step2 rest := by
  have hne : pre ++ '\\' :: '(' :: (m ++ '\\' :: ')' :: rest) ≠ [] := by simp
  rw [cleanLatex, if_neg hne]
  rw [show step1 (pre ++ '\\' :: '(' :: (m ++ '\\' :: ')' :: rest)) =
      pre ++ '\\' :: '(' :: (m ++ '\\' :: ')' :: rest) from replDelimF_id _ _ h0]
  rw [show step2 (pre ++ '\\' :: '(' :: (m ++ '\\' :: ')' :: rest)) =
      pre ++ "$".data ++ m ++ "$".data ++ step2 rest from
    replDelimF_span (by decide) (by decide) _ pre m rest (le_refl _) h1 h2 h3]
  rw [show fixBold (pre ++ "$".data ++ m ++ "$".data ++ step2 rest) =
      pre ++ "$".data ++ m ++ "$".data ++ step2 rest from replaceAllF_id _ _ h4]
  rw [show fixSen (pre ++ "$".data ++ m ++ "$".data ++ step2 rest) =
      pre ++ "$".data ++ m ++ "$".data ++ step2 rest from replaceAllF_id _ _ h5]
  rw [show fixTg (pre ++ "$".data ++ m ++ "$".data ++ step2 rest) =
      pre ++ "$".data ++ m ++ "$".data ++ step2 rest from replaceAllF_id _ _ h6]

/-- Witness for the amended C2 at `"a \(x\) b"`. -/
theorem cleanLatex_inline_span_w :
    cleanLatex ("a ".data ++ '\\' :: '(' :: ("x".data ++ '\\' :: ')' :: " b".data)) =
      "a ".data ++ "$".data ++ "x".data ++ "$".data ++ step2 " b".data :=
  cleanLatex_inline_span "a ".data "x".data " b".data (by decide) (by decide)
    (by decide) (by decide) (by decide) (by decide) (by decide)

/-!
## Claim C3 — idempotence of the Normalizer
-/

/-- C3 (counterexample): the Normalizer is not idempotent.  On the nested
legacy display spans `\[\[a\]\]` the first pass rewrites the outer-lazy
match and leaves the fragments `\[a` and `\]`, which the second pass then
matches and rewrites again. -/
theorem cleanLatex_not_idempotent :
    cleanLatex (cleanLatex "\\[\\[a\\]\\]".data) ≠ cleanLatex "\\[\\[a\\]\\]".data := by
  decide

/-- C3 (amended): the Normalizer is idempotent on every string whose
normalized form contains no residual legacy opener `\[` or `\(` — in
particular on all inputs without nested or unbalanced legacy delimiters.
Steps 1 and 2 are then the identity on the normalized form, and step 3 is
always the identity on it because no correction pattern survives
normalization. -/
theorem cleanLatex_idem_of_no_legacy_open (s : List Char)
    (h1 : occursB "\\[".data (cleanLatex s) = false)
    (h2 : occursB "\\(".data (cleanLatex s) = false) :
    cleanLatex (cleanLatex s) = cleanLatex s := by
  by_cases ht : cleanLatex s = []
  · rw [ht]; rfl
  · conv_lhs => rw [cleanLatex]
    rw [if_neg ht]
    rw [show step1 (cleanLatex s) = cleanLatex s from replDelimF_id _ _ h1]
    rw [show step2 (cleanLatex s) = cleanLatex s from replDelimF_id _ _ h2]
    rw [show fixBold (cleanLatex s) = cleanLatex s from
      replaceAllF_id _ _ (cleanLatex_no_bold s)]
    rw [show fixSen (cleanLatex s) = cleanLatex s from
      replaceAllF_id _ _ (cleanLatex_no_sen s)]
    rw [show fixTg (cleanLatex s) = cleanLatex s from
      replaceAllF_id _ _ (cleanLatex_no_tg s)]

/-- Witness for the amended C3 at `"\[a\] y \(b\)"`, whose normalized form
`"\n$a$\n y $b$"` has no legacy opener left. -/
theorem cleanLatex_idem_of_no_legacy_open_w :
    occursB "\\[".data (cleanLatex "\\[a\\] y \\(b\\)".data) = false ∧
    occursB "\\(".data (cleanLatex "\\[a\\] y \\(b\\)".data) = false ∧
    cleanLatex (cleanLatex "\\[a\\] y \\(b\\)".data) = cleanLatex "\\[a\\] y \\(b\\)".data :=
  ⟨by decide, by decide,
    cleanLatex_idem_of_no_legacy_open "\\[a\\] y \\(b\\)".data (by decide) (by decide)⟩

/-!
## Claim C8 — command-name corrections
-/

/-- C8: the correction table.  At the spec's example the Normalizer
produces exactly `\sin(x) + \tan(y) + \mathbf{z}` — containing the three
corrected commands and none of the incorrect ones — and, in general, no
output of the Normalizer contains `\bold{`, `\sen` or `\tg`. -/
theorem cleanLatex_corrections :
    (cleanLatex "\\sen(x) + \\tg(y) + \\bold\x7bz\x7d".data =
      "\\sin(x) + \\tan(y) + \\mathbf\x7bz\x7d".data) ∧
    occursB "\\sin(x)".data (cleanLatex "\\sen(x) + \\tg(y) + \\bold\x7bz\x7d".data) = true ∧
    occursB "\\tan(y)".data (cleanLatex "\\sen(x) + \\tg(y) + \\bold\x7bz\x7d".data) = true ∧
    occursB "\\mathbf\x7bz\x7d".data (cleanLatex "\\sen(x) + \\tg(y) + \\bold\x7bz\x7d".data) = true ∧
    (∀ s : List Char, occursB "\\bold\x7b".data (cleanLatex s) = false ∧
      occursB "\\sen".data (cleanLatex s) = false ∧
      occursB "\\tg".data (cleanLatex s) = false) :=
  ⟨by decide, by decide, by decide, by decide,
    fun s => ⟨cleanLatex_no_bold s, cleanLatex_no_sen s, cleanLatex_no_tg s⟩⟩

/-!
## The tokens concatenate back to the split input
-/

theorem joinL_pushText (ch : Char) (toks : List Tok) :
    joinL ((pushText ch toks).map rawTok) = ch :: joinL (toks.map rawTok) := by
  cases toks with
  | nil => rfl
  | cons t rest => cases t <;> rfl

theorem tokenizeF_join : ∀ fuel s, s.length ≤ fuel →
    joinL ((tokenizeF fuel s).map rawTok) = s := by
  intro fuel
  induction fuel with
  | zero =>
    intro s hf
    cases s with
    | nil => rfl
    | cons a rest => simp at hf
  | succ fuel ih =>
    intro s hf
    cases s with
    | nil => rfl
    | cons a rest =>
      simp only [tokenizeF]
      cases hb : matchBlock (a :: rest) with
      | some xq =>
        obtain ⟨x, q⟩ := xq
        obtain ⟨he, _⟩ := matchBlock_some hb
        have hq := matchBlock_some_len hb
        simp only [List.length_cons] at hq hf
        show joinL ((Tok.tmath2 x :: tokenizeF fuel q).map rawTok) = a :: rest
        simp only [List.map_cons, joinL, rawTok]
        rw [ih q (by omega)]
        rw [he]
        simp
      | none =>
        cases hi : matchInline (a :: rest) with
        | some iq =>
          obtain ⟨i, q⟩ := iq
          obtain ⟨he, _, _⟩ := matchInline_some hi
          have hq := matchInline_some_len hi
          simp only [List.length_cons] at hq hf
          show joinL ((Tok.tmath1 i :: tokenizeF fuel q).map rawTok) = a :: rest
          simp only [List.map_cons, joinL, rawTok]
          rw [ih q (by omega)]
          rw [he]
          simp
        | none =>
          have hrest : rest.length ≤ fuel := by simp at hf; omega
          by_cases hn : a = '\n'
          · rw [if_pos hn]
            show joinL ((Tok.tbrk :: tokenizeF fuel rest).map rawTok) = a :: rest
            simp only [List.map_cons, joinL, rawTok]
            rw [ih rest hrest]
            rw [hn]
            rfl
          · rw [if_neg hn]
            rw [joinL_pushText]
            rw [ih rest hrest]

/-!
## `trim` decomposes its argument
-/

theorem all_takeWhile (p : Char → Bool) :
    ∀ s : List Char, (s.takeWhile p).all p = true := by
  intro s
  induction s with
  | nil => rfl
  | cons c cs ih =>
    simp only [List.takeWhile]
    cases hc : p c with
    | false => rfl
    | true => simp [hc, ih]

theorem trim_decomp (s : List Char) :
    ∃ l t, allWS l = true ∧ allWS t = true ∧ s = l ++ trim s ++ t := by
  refine ⟨s.takeWhile isWS, ((s.dropWhile isWS).reverse.takeWhile isWS).reverse,
    all_takeWhile isWS s, ?_, ?_⟩
  · rw [allWS, List.all_reverse]
    exact all_takeWhile isWS _
  · conv_lhs => rw [← List.takeWhile_append_dropWhile (p := isWS) (l := s)]
    rw [List.append_assoc]
    congr 1
    rw [trim]
    conv_lhs => rw [← List.reverse_reverse (s.dropWhile isWS)]
    conv_lhs =>
      rw [← List.takeWhile_append_dropWhile (p := isWS) (l := (s.dropWhile isWS).reverse)]
    rw [List.reverse_append]

/-!
## A segment's raw form, pointwise

`classifyPart` sends every part to a segment whose possible raw forms
include that part.  The part is decomposed by its first and last
characters, mirroring the `startsWith`/`endsWith` checks.
-/

theorem take_len_append {α : Type} : ∀ a b : List α, (a ++ b).take a.length = a := by
  intro a b
  induction a with
  | nil => rfl
  | cons x xs ih => simp [ih]

theorem ends_append_two {x y : Char} {part : List Char}
    (h : begins [x, y] part.reverse = true) : ∃ w, part = w ++ [y, x] := by
  have he : part.reverse = [x, y] ++ part.reverse.drop 2 := begins_eq_append h
  refine ⟨(part.reverse.drop 2).reverse, ?_⟩
  have hthis : part = ([x, y] ++ part.reverse.drop 2).reverse := by
    rw [← he, List.reverse_reverse]
  rw [hthis]
  simp

theorem ends_append_one {x : Char} {part : List Char}
    (h : begins [x] part.reverse = true) : ∃ w, part = w ++ [x] := by
  have he : part.reverse = [x] ++ part.reverse.drop 1 := begins_eq_append h
  refine ⟨(part.reverse.drop 1).reverse, ?_⟩
  have hthis : part = ([x] ++ part.reverse.drop 1).reverse := by
    rw [← he, List.reverse_reverse]
  rw [hthis]
  simp

theorem segRaw_classifyPart (part : List Char) : segRaw (classifyPart part) part := by
  rw [classifyPart]
  by_cases h1 : part = ['\n']
  · rw [if_pos h1]
    exact h1
  · rw [if_neg h1]
    by_cases h2 : (begins "$$".data part && begins "$$".data part.reverse) = true
    · rw [if_pos h2]
      rw [Bool.and_eq_true] at h2
      obtain ⟨w, hw⟩ := ends_append_two h2.2
      have hp := begins_eq_append h2.1
      cases w with
      | nil =>
        have hpart : part = ['$', '$'] := by simpa using hw
        subst hpart
        exact Or.inr ⟨by decide, by decide, by decide⟩
      | cons w0 w' =>
        cases w' with
        | nil =>
          have hpart : part = [w0, '$', '$'] := by simpa using hw
          have hw0 : w0 = '$' := by
            rw [hpart] at hp
            simpa using hp
          subst hw0
          subst hpart
          exact Or.inr ⟨by decide, by decide, by decide⟩
        | cons w1 w'' =>
          have hpart : part = w0 :: w1 :: (w'' ++ ['$', '$']) := by simpa using hw
          have hw01 : w0 = '$' ∧ w1 = '$' := by
            rw [hpart] at hp
            simp at hp
            exact hp
          obtain ⟨hw0, hw1⟩ := hw01
          subst hw0
          subst hw1
          subst hpart
          have hvalue : (((('$' :: '$' :: (w'' ++ ['$', '$']))).drop 2).take
              ((('$' :: '$' :: (w'' ++ ['$', '$']))).length - 4)) = w'' := by
            have hlen : (('$' :: '$' :: (w'' ++ ['$', '$']))).length - 4 = w''.length := by
              simp
            rw [hlen]
            exact take_len_append w'' ['$', '$']
          rw [hvalue]
          obtain ⟨l, t, hl, ht, he⟩ := trim_decomp w''
          refine Or.inl ⟨l, t, hl, ht, Or.inr ?_⟩
          have hglue : w'' ++ ['$', '$'] = l ++ trim w'' ++ t ++ "$$".data := by
            conv_lhs => rw [he]
          rw [hglue]
    · rw [if_neg h2]
      by_cases h3 : (begins "$".data part && begins "$".data part.reverse) = true
      · rw [if_pos h3]
        rw [Bool.and_eq_true] at h3
        obtain ⟨w, hw⟩ := ends_append_one h3.2
        have hp := begins_eq_append h3.1
        cases w with
        | nil =>
          have hpart : part = ['$'] := by simpa using hw
          subst hpart
          rw [if_neg (by decide)]
          exact Or.inr ⟨by decide, by decide, by decide⟩
        | cons w0 w' =>
          have hpart : part = w0 :: (w' ++ ['$']) := by simpa using hw
          have hw0 : w0 = '$' := by
            rw [hpart] at hp
            simpa using hp
          subst hw0
          subst hpart
          have hvalue : (((('$' :: (w' ++ ['$']))).drop 1).take
              ((('$' :: (w' ++ ['$']))).length - 2)) = w' := by
            have hlen : (('$' :: (w' ++ ['$']))).length - 2 = w'.length := by
              simp
            rw [hlen]
            exact take_len_append w' ['$']
          rw [hvalue]
          by_cases hm : isMoney (trim w') = true
          · rw [if_pos hm]
            rfl
          · rw [if_neg hm]
            obtain ⟨l, t, hl, ht, he⟩ := trim_decomp w'
            refine Or.inl ⟨l, t, hl, ht, Or.inl ?_⟩
            have hglue : w' ++ ['$'] = l ++ trim w' ++ t ++ ['$'] := by
              conv_lhs => rw [he]
            rw [hglue]
      · rw [if_neg h3]
        rfl

theorem forall₂_map_pointwise {α β γ : Type} (Rel : β → γ → Prop) (f : α → β) (g : α → γ)
    (h : ∀ a, Rel (f a) (g a)) : ∀ l : List α, List.Forall₂ Rel (l.map f) (l.map g) := by
  intro l
  induction l with
  | nil => simp
  | cons a as ih =>
    simp only [List.map_cons]
    exact List.Forall₂.cons (h a) ih

/-!
## Claim C4 — run-splitter round trip
-/

/-- C4 (counterexample): segments carry no display flag and math values
are trimmed, so the claimed reconstruction cannot reproduce the
normalized input.  `"$ x $"` is already normalized and splits into the
single math segment `"x"`, yet neither `$x$` nor `$$x$$` equals
`"$ x $"`. -/
theorem splitTextAndMath_roundtrip_cex :
    cleanLatex "$ x $".data = "$ x $".data ∧
    splitTextAndMath "$ x $".data = [⟨SegKind.math, "x".data⟩] ∧
    "$".data ++ "x".data ++ "$".data ≠ "$ x $".data ∧
    "$$".data ++ "x".data ++ "$$".data ≠ "$ x $".data :=
  ⟨by decide, by decide, by decide, by decide⟩

/-- C4 (amended): for every input there is one raw string per segment of
`splitTextAndMath` whose in-order concatenation is exactly the normalized
input, where a text segment's raw string is its value, a break's is a
newline, and a math segment's raw string is its value wrapped in its
original delimiters (`$…$` or `$$…$$`) with its original surrounding
whitespace (lost to trimming) restored inside them. -/
theorem splitTextAndMath_reassembly (s : List Char) :
    ∃ raws : List (List Char), joinL raws = cleanLatex s ∧
      List.Forall₂ segRaw (splitTextAndMath s) raws := by
  by_cases hs : s = []
  · subst hs
    exact ⟨[], rfl, by rw [splitTextAndMath, if_pos rfl]; exact List.Forall₂.nil⟩
  · refine ⟨(tokenizeF (cleanLatex s).length (cleanLatex s)).map rawTok, ?_, ?_⟩
    · exact tokenizeF_join _ _ (le_refl _)
    · rw [splitTextAndMath, if_neg hs]
      exact forall₂_map_pointwise segRaw (fun tok => classifyPart (rawTok tok)) rawTok
        (fun tok => segRaw_classifyPart (rawTok tok)) _

/-!
## Step equations for the scanners
-/

theorem tokenizeF_step_block {fuel : Nat} {a : Char} {rest x q : List Char}
    (hb : matchBlock (a :: rest) = some (x, q)) :
    tokenizeF (fuel + 1) (a :: rest) = Tok.tmath2 x :: tokenizeF fuel q := by
  simp only [tokenizeF, hb]

theorem tokenizeF_step_inline {fuel : Nat} {a : Char} {rest i q : List Char}
    (hb : matchBlock (a :: rest) = none) (hi : matchInline (a :: rest) = some (i, q)) :
    tokenizeF (fuel + 1) (a :: rest) = Tok.tmath1 i :: tokenizeF fuel q := by
  simp only [tokenizeF, hb, hi]

theorem tokenizeF_step_brk {fuel : Nat} {rest : List Char}
    (hb : matchBlock ('\n' :: rest) = none) (hi : matchInline ('\n' :: rest) = none) :
    tokenizeF (fuel + 1) ('\n' :: rest) = Tok.tbrk :: tokenizeF fuel rest := by
  simp [tokenizeF, hb, hi]

theorem tokenizeF_step_text {fuel : Nat} {a : Char} {rest : List Char}
    (hb : matchBlock (a :: rest) = none) (hi : matchInline (a :: rest) = none)
    (hn : a ≠ '\n') :
    tokenizeF (fuel + 1) (a :: rest) = pushText a (tokenizeF fuel rest) := by
  simp only [tokenizeF, hb, hi, if_neg hn]

theorem pass1F_step_some {r : Bool → List Char → Option (List Char)}
    {fuel : Nat} {a : Char} {rest x q : List Char}
    (hb : matchBlock (a :: rest) = some (x, q)) :
    pass1F r (fuel + 1) (a :: rest) =
      (match r true x with
       | some m => m
       | none => errBlockSpan x) ++ pass1F r fuel q := by
  simp only [pass1F, hb]

theorem pass1F_step_none {r : Bool → List Char → Option (List Char)}
    {fuel : Nat} {a : Char} {rest : List Char}
    (hb : matchBlock (a :: rest) = none) :
    pass1F r (fuel + 1) (a :: rest) = a :: pass1F r fuel rest := by
  simp only [pass1F, hb]

theorem pass2F_step_some {r : Bool → List Char → Option (List Char)}
    {fuel : Nat} {a : Char} {rest i q : List Char}
    (hi : matchInline (a :: rest) = some (i, q)) :
    pass2F r (fuel + 1) (a :: rest) =
      (if isMoney (trim i) then '$' :: (i ++ ['$'])
       else match r false i with
         | some m => m
         | none => errInlineSpan i) ++ pass2F r fuel q := by
  simp only [pass2F, hi]

theorem pass2F_step_none {r : Bool → List Char → Option (List Char)}
    {fuel : Nat} {a : Char} {rest : List Char}
    (hi : matchInline (a :: rest) = none) :
    pass2F r (fuel + 1) (a :: rest) = a :: pass2F r fuel rest := by
  simp only [pass2F, hi]

/-!
## Text runs in the token stream are non-empty and non-adjacent
-/

theorem pushText_ttext_mem {c : Char} {t : List Char} {toks : List Tok}
    (h : Tok.ttext t ∈ pushText c toks) : t ≠ [] ∨ Tok.ttext t ∈ toks := by
  cases toks with
  | nil =>
    left
    have : t = [c] := by simpa [pushText] using h
    simp [this]
  | cons t₀ rest =>
    cases t₀ with
    | ttext u =>
      rcases List.mem_cons.mp h with h | h
      · left
        have : t = c :: u := by simpa using h
        simp [this]
      · exact Or.inr (List.mem_cons_of_mem _ h)
    | tmath2 x =>
      rcases List.mem_cons.mp (h : Tok.ttext t ∈ Tok.ttext [c] :: Tok.tmath2 x :: rest) with h | h
      · left
        have : t = [c] := by simpa using h
        simp [this]
      · exact Or.inr h
    | tmath1 y =>
      rcases List.mem_cons.mp (h : Tok.ttext t ∈ Tok.ttext [c] :: Tok.tmath1 y :: rest) with h | h
      · left
        have : t = [c] := by simpa using h
        simp [this]
      · exact Or.inr h
    | tbrk =>
      rcases List.mem_cons.mp (h : Tok.ttext t ∈ Tok.ttext [c] :: Tok.tbrk :: rest) with h | h
      · left
        have : t = [c] := by simpa using h
        simp [this]
      · exact Or.inr h

theorem tokenizeF_ttext_ne : ∀ fuel s t, Tok.ttext t ∈ tokenizeF fuel s → t ≠ [] := by
  intro fuel
  induction fuel with
  | zero =>
    intro s t h
    cases s with
    | nil => simp [tokenizeF] at h
    | cons a rest => simp [tokenizeF] at h
  | succ fuel ih =>
    intro s t h
    cases s with
    | nil => simp [tokenizeF] at h
    | cons a rest =>
      cases hb : matchBlock (a :: rest) with
      | some xq =>
        obtain ⟨x, q⟩ := xq
        rw [tokenizeF_step_block hb] at h
        rcases List.mem_cons.mp h with h | h
        · simp at h
        · exact ih q t h
      | none =>
        cases hi : matchInline (a :: rest) with
        | some iq =>
          obtain ⟨i, q⟩ := iq
          rw [tokenizeF_step_inline hb hi] at h
          rcases List.mem_cons.mp h with h | h
          · simp at h
          · exact ih q t h
        | none =>
          by_cases hn : a = '\n'
          · subst hn
            rw [tokenizeF_step_brk hb hi] at h
            rcases List.mem_cons.mp h with h | h
            · simp at h
            · exact ih rest t h
          · rw [tokenizeF_step_text hb hi hn] at h
            rcases pushText_ttext_mem h with h | h
            · exact h
            · exact ih rest t h

theorem notTextPair_of_left {a b : Tok} (h : ∀ u, a ≠ Tok.ttext u) :
    ¬((∃ u, a = Tok.ttext u) ∧ (∃ v, b = Tok.ttext v)) :=
  fun hc => h hc.1.choose hc.1.choose_spec

theorem pushText_chain (c : Char) (toks : List Tok)
    (h : List.Chain' (fun a b => ¬((∃ u, a = Tok.ttext u) ∧ (∃ v, b = Tok.ttext v))) toks) :
    List.Chain' (fun a b => ¬((∃ u, a = Tok.ttext u) ∧ (∃ v, b = Tok.ttext v)))
      (pushText c toks) := by
  cases toks with
  | nil => simp [pushText]
  | cons t₀ rest =>
    cases t₀ with
    | ttext u =>
      show List.Chain' _ (Tok.ttext (c :: u) :: rest)
      rw [List.chain'_cons'] at h ⊢
      refine ⟨?_, h.2⟩
      intro b hb hc
      exact h.1 b hb ⟨⟨u, rfl⟩, hc.2⟩
    | tmath2 x =>
      show List.Chain' _ (Tok.ttext [c] :: Tok.tmath2 x :: rest)
      rw [List.chain'_cons']
      refine ⟨?_, h⟩
      intro b hb
      have hbe : Tok.tmath2 x = b := by simpa using hb
      subst hbe
      exact fun hc => by
        obtain ⟨v, hv⟩ := hc.2
        simp at hv
    | tmath1 y =>
      show List.Chain' _ (Tok.ttext [c] :: Tok.tmath1 y :: rest)
      rw [List.chain'_cons']
      refine ⟨?_, h⟩
      intro b hb
      have hbe : Tok.tmath1 y = b := by simpa using hb
      subst hbe
      exact fun hc => by
        obtain ⟨v, hv⟩ := hc.2
        simp at hv
    | tbrk =>
      show List.Chain' _ (Tok.ttext [c] :: Tok.tbrk :: rest)
      rw [List.chain'_cons']
      refine ⟨?_, h⟩
      intro b hb
      have hbe : Tok.tbrk = b := by simpa using hb
      subst hbe
      exact fun hc => by
        obtain ⟨v, hv⟩ := hc.2
        simp at hv

theorem tokenizeF_chain : ∀ fuel s,
    List.Chain' (fun a b => ¬((∃ u, a = Tok.ttext u) ∧ (∃ v, b = Tok.ttext v)))
      (tokenizeF fuel s) := by
  intro fuel
  induction fuel with
  | zero =>
    intro s
    cases s with
    | nil => simp [tokenizeF]
    | cons a rest => simp [tokenizeF]
  | succ fuel ih =>
    intro s
    cases s with
    | nil => simp [tokenizeF]
    | cons a rest =>
      cases hb : matchBlock (a :: rest) with
      | some xq =>
        obtain ⟨x, q⟩ := xq
        rw [tokenizeF_step_block hb]
        rw [List.chain'_cons']
        exact ⟨fun b _ => notTextPair_of_left (by simp), ih q⟩
      | none =>
        cases hi : matchInline (a :: rest) with
        | some iq =>
          obtain ⟨i, q⟩ := iq
          rw [tokenizeF_step_inline hb hi]
          rw [List.chain'_cons']
          exact ⟨fun b _ => notTextPair_of_left (by simp), ih q⟩
        | none =>
          by_cases hn : a = '\n'
          · subst hn
            rw [tokenizeF_step_brk hb hi]
            rw [List.chain'_cons']
            exact ⟨fun b _ => notTextPair_of_left (by simp), ih rest⟩
          · rw [tokenizeF_step_text hb hi hn]
            exact pushText_chain a _ (ih rest)

/-!
## Claim C9 — no adjacent text segments
-/

/-- C9 (counterexample): a currency span produces a `text` segment that
sits directly between the surrounding unmatched-text segments, so
`splitTextAndMath "x$1$y"` has three consecutive `text` segments. -/
theorem splitTextAndMath_adjacent_text_cex :
    splitTextAndMath "x$1$y".data =
      [⟨SegKind.text, "x".data⟩, ⟨SegKind.text, "$1$".data⟩, ⟨SegKind.text, "y".data⟩] := by
  decide

/-- `begins` on a two-character pattern implies `begins` on its head. -/
theorem begins_one_of_two {p q : Char} {s : List Char}
    (h : begins [p, q] s = true) : begins [p] s = true := by
  cases s with
  | nil => simp [begins] at h
  | cons c cs =>
    rw [begins_cons, Bool.and_eq_true] at h
    rw [begins_cons]
    simp [begins, h.1]

/-- A part that does not start with `$` and is not a lone newline is
classified as plain text. -/
theorem classifyPart_plain {part : List Char}
    (h1 : part ≠ ['\n']) (h2 : begins "$".data part = false) :
    classifyPart part = ⟨SegKind.text, part⟩ := by
  have hdd : (begins "$$".data part && begins "$$".data part.reverse) = false := by
    cases hb : begins "$$".data part with
    | false => simp [hb]
    | true =>
      have hb' : begins ['$', '$'] part = true := hb
      have h2' : begins ['$'] part = false := h2
      rw [begins_one_of_two hb'] at h2'
      exact absurd h2' (by decide)
  have hd : (begins "$".data part && begins "$".data part.reverse) = false := by
    simp [h2]
  rw [classifyPart, if_neg h1, if_neg (by rw [hdd]; decide), if_neg (by rw [hd]; decide)]

/-- The interior slice `part.slice(1, -1)` of `$y$` is `y`. -/
theorem inline_inner (y : List Char) :
    ((('$' :: (y ++ ['$'])).drop 1).take (('$' :: (y ++ ['$'])).length - 2)) = y := by
  have hlen : ('$' :: (y ++ ['$'])).length - 2 = y.length := by simp
  rw [hlen]
  show (y ++ ['$']).take y.length = y
  exact take_len_append y ['$']

/-- Classification of an inline-matched part `$y$` with `$`-free
non-empty interior: the money test decides between text and math. -/
theorem classifyPart_inline (y : List Char) (hy : y ≠ []) (hyD : '$' ∉ y) :
    classifyPart ('$' :: (y ++ ['$'])) =
      if isMoney (trim y) then ⟨SegKind.text, '$' :: (y ++ ['$'])⟩
      else ⟨SegKind.math, trim y⟩ := by
  have h1 : ('$' :: (y ++ ['$'])) ≠ ['\n'] := by
    intro h
    injection h with ha hb
    exact absurd ha (by decide)
  have hdd : (begins "$$".data ('$' :: (y ++ ['$'])) &&
      begins "$$".data ('$' :: (y ++ ['$'])).reverse) = false := by
    cases y with
    | nil => exact absurd rfl hy
    | cons c cs =>
      have hc : ('$' = c : Bool) = false := by
        simp only [decide_eq_false_iff_not]
        exact fun hh => hyD (by simp [← hh])
      have hfst : begins "$$".data ('$' :: ((c :: cs) ++ ['$'])) = false := by
        show begins ['$', '$'] ('$' :: c :: (cs ++ ['$'])) = false
        rw [begins_cons, begins_cons]
        simp [hc]
      rw [hfst, Bool.false_and]
  have hrev : ('$' :: (y ++ ['$'])).reverse = '$' :: (y.reverse ++ ['$']) := by
    simp
  have hd : (begins "$".data ('$' :: (y ++ ['$'])) &&
      begins "$".data ('$' :: (y ++ ['$'])).reverse) = true := by
    rw [hrev]
    show (begins ['$'] ('$' :: (y ++ ['$'])) && begins ['$'] ('$' :: (y.reverse ++ ['$']))) = true
    simp [begins]
  rw [classifyPart, if_neg h1, if_neg (by rw [hdd]; decide), if_pos hd, inline_inner]

/-- Classification of a display-matched part `$$x$$`: always math, value
trimmed. -/
theorem classifyPart_block (x : List Char) :
    classifyPart ('$' :: '$' :: (x ++ "$$".data)) = ⟨SegKind.math, trim x⟩ := by
  have h1 : ('$' :: '$' :: (x ++ "$$".data)) ≠ ['\n'] := by
    intro h
    injection h with ha hb
    exact absurd ha (by decide)
  have hrev : ('$' :: '$' :: (x ++ "$$".data)).reverse = '$' :: '$' :: (x.reverse ++ ['$', '$']) := by
    simp
  have hdd : (begins "$$".data ('$' :: '$' :: (x ++ "$$".data)) &&
      begins "$$".data ('$' :: '$' :: (x ++ "$$".data)).reverse) = true := by
    rw [hrev]
    show (begins ['$', '$'] ('$' :: '$' :: (x ++ "$$".data)) &&
      begins ['$', '$'] ('$' :: '$' :: (x.reverse ++ ['$', '$']))) = true
    simp [begins]
  have hinner : ((('$' :: '$' :: (x ++ "$$".data)).drop 2).take
      (('$' :: '$' :: (x ++ "$$".data)).length - 4)) = x := by
    have hlen : ('$' :: '$' :: (x ++ "$$".data)).length - 4 = x.length := by
      show ('$' :: '$' :: (x ++ ['$', '$'])).length - 4 = x.length
      simp
    rw [hlen]
    show (x ++ "$$".data).take x.length = x
    exact take_len_append x "$$".data
  rw [classifyPart, if_neg h1, if_pos hdd, hinner]

/-- Whenever the classifier yields a `text` segment, its value is the
part itself. -/
theorem classifyPart_text_value {part : List Char}
    (h : (classifyPart part).type = SegKind.text) :
    (classifyPart part).value = part := by
  rw [classifyPart] at h ⊢
  by_cases h1 : part = ['\n']
  · rw [if_pos h1] at h
    exact absurd h (by decide)
  · rw [if_neg h1] at h ⊢
    by_cases h2 : (begins "$$".data part && begins "$$".data part.reverse) = true
    · rw [if_pos h2] at h
      simp at h
    · rw [if_neg h2] at h ⊢
      by_cases h3 : (begins "$".data part && begins "$".data part.reverse) = true
      · rw [if_pos h3] at h ⊢
        by_cases hm : isMoney (trim ((part.drop 1).take (part.length - 2))) = true
        · rw [if_pos hm]
        · rw [if_neg hm] at h
          simp at h
      · rw [if_neg h3]

/-- A token mapping to a `text` segment is a text run or a currency span. -/
theorem classify_tok_text_shape {tok : Tok}
    (h : (classifyPart (rawTok tok)).type = SegKind.text) :
    (∃ u, tok = Tok.ttext u) ∨
    (∃ y, tok = Tok.tmath1 y ∧ isMoney (trim y) = true ∧
      (classifyPart (rawTok tok)).value = '$' :: (y ++ ['$'])) := by
  cases tok with
  | ttext t => exact Or.inl ⟨t, rfl⟩
  | tbrk =>
    rw [show classifyPart (rawTok Tok.tbrk) = ⟨SegKind.brk, []⟩ from by decide] at h
    exact absurd h (by decide)
  | tmath2 x =>
    rw [show rawTok (Tok.tmath2 x) = '$' :: '$' :: (x ++ "$$".data) from rfl,
      classifyPart_block] at h
    simp at h
  | tmath1 y =>
    rw [show rawTok (Tok.tmath1 y) = '$' :: (y ++ ['$']) from rfl] at h ⊢
    rw [classifyPart, inline_inner] at h
    by_cases h1 : ('$' :: (y ++ ['$'])) = ['\n']
    · rw [if_pos h1] at h
      exact absurd h (by decide)
    · rw [if_neg h1] at h
      by_cases h2 : (begins "$$".data ('$' :: (y ++ ['$'])) &&
          begins "$$".data ('$' :: (y ++ ['$'])).reverse) = true
      · rw [if_pos h2] at h
        simp at h
      · rw [if_neg h2] at h
        by_cases h3 : (begins "$".data ('$' :: (y ++ ['$'])) &&
            begins "$".data ('$' :: (y ++ ['$'])).reverse) = true
        · rw [if_pos h3] at h
          by_cases hm : isMoney (trim y) = true
          · refine Or.inr ⟨y, rfl, hm, ?_⟩
            rw [classifyPart, inline_inner, if_neg h1, if_neg h2, if_pos h3, if_pos hm]
          · rw [if_neg hm] at h
            simp at h
        · exfalso
          apply h3
          have hrev : ('$' :: (y ++ ['$'])).reverse = '$' :: (y.reverse ++ ['$']) := by
            simp
          rw [hrev]
          show (begins ['$'] ('$' :: (y ++ ['$'])) &&
            begins ['$'] ('$' :: (y.reverse ++ ['$']))) = true
          simp [begins]

/-- C9 (amended): in the output of `splitTextAndMath`, two consecutive
`text` segments can only arise when one of them is a preserved currency
span (`$` + price-like interior + `$`); and no `text` segment has an
empty value. -/
theorem splitTextAndMath_adjacent_text (s : List Char) :
    List.Chain' (fun a b => a.type = SegKind.text → b.type = SegKind.text →
      ∃ y, isMoney (trim y) = true ∧
        (a.value = '$' :: (y ++ ['$']) ∨ b.value = '$' :: (y ++ ['$'])))
      (splitTextAndMath s) ∧
    ∀ seg ∈ splitTextAndMath s, seg.type = SegKind.text → seg.value ≠ [] := by
  by_cases hs : s = []
  · subst hs
    rw [splitTextAndMath, if_pos rfl]
    exact ⟨by simp, by simp⟩
  · rw [splitTextAndMath, if_neg hs]
    constructor
    · rw [List.chain'_map]
      apply List.Chain'.imp ?_ (tokenizeF_chain _ _)
      intro a b hP ha hb
      rcases classify_tok_text_shape ha with ⟨u, hu⟩ | ⟨y, hy, hmy, hv⟩
      · rcases classify_tok_text_shape hb with ⟨v, hv⟩ | ⟨y, hy, hmy, hv⟩
        · exact absurd ⟨⟨u, hu⟩, ⟨v, hv⟩⟩ hP
        · exact ⟨y, hmy, Or.inr hv⟩
      · exact ⟨y, hmy, Or.inl hv⟩
    · intro seg hseg ht
      obtain ⟨tok, htok, rfl⟩ := List.mem_map.mp hseg
      rw [classifyPart_text_value ht]
      cases tok with
      | ttext t =>
        exact tokenizeF_ttext_ne _ _ t htok
      | tmath2 x => simp [rawTok]
      | tbrk => simp [rawTok]
      | tmath1 y => simp [rawTok]

/-!
## Identity, copy and span lemmas for the renderer passes
-/

theorem matchBlock_none {s : List Char} (h : begins ['$', '$'] s = false) :
    matchBlock s = none := by
  match s with
  | [] => rfl
  | [a] => rfl
  | [a, b] => rfl
  | a :: b :: r0 :: rest3 =>
    simp only [matchBlock]
    have hc : (a = '$' && b = '$') = false := by
      by_cases ha : a = '$'
      · by_cases hb : b = '$'
        · exfalso; subst ha hb; simp [begins] at h
        · simp [hb]
      · simp [ha]
    rw [hc]
    simp

theorem matchInline_none_head {a : Char} {rest : List Char} (h : a ≠ '$') :
    matchInline (a :: rest) = none := by
  simp [matchInline, h]

theorem pass1F_id (r : Bool → List Char → Option (List Char)) :
    ∀ fuel s, occursB "$$".data s = false → pass1F r fuel s = s := by
  intro fuel
  induction fuel with
  | zero => intro s _; cases s <;> rfl
  | succ fuel ih =>
    intro s h
    cases s with
    | nil => rfl
    | cons a rest =>
      rw [occursB_cons, Bool.or_eq_false_iff] at h
      obtain ⟨h1, h2⟩ := h
      rw [pass1F_step_none (matchBlock_none h1)]
      rw [ih rest h2]

theorem pass2F_id (r : Bool → List Char → Option (List Char)) :
    ∀ fuel s, hasInlineSpan s = false → pass2F r fuel s = s := by
  intro fuel
  induction fuel with
  | zero => intro s _; cases s <;> rfl
  | succ fuel ih =>
    intro s h
    cases s with
    | nil => rfl
    | cons a rest =>
      rw [hasInlineSpan, Bool.or_eq_false_iff] at h
      obtain ⟨h1, h2⟩ := h
      have hmi : matchInline (a :: rest) = none := by
        cases hm : matchInline (a :: rest) with
        | none => rfl
        | some iq => rw [hm] at h1; simp at h1
      rw [pass2F_step_none hmi]
      rw [ih rest h2]

theorem hasInlineSpan_false_of_no_dollar :
    ∀ s : List Char, (∀ ch ∈ s, ch ≠ '$') → hasInlineSpan s = false := by
  intro s
  induction s with
  | nil => intro _; rfl
  | cons c cs ih =>
    intro h
    rw [hasInlineSpan]
    rw [matchInline_none_head (h c (by simp))]
    simp only [Option.isSome_none, Bool.false_or]
    exact ih (fun ch hch => h ch (List.mem_cons_of_mem _ hch))

theorem cleanLatex_id_of_no_bs {s : List Char} (h : '\\' ∉ s) : cleanLatex s = s := by
  by_cases hs : s = []
  · subst hs; rfl
  · rw [cleanLatex, if_neg hs]
    rw [show step1 s = s from replDelimF_id _ _ (occursB_false_of_head_notMem h)]
    rw [show step2 s = s from replDelimF_id _ _ (occursB_false_of_head_notMem h)]
    rw [show fixBold s = s from replaceAllF_id _ _ (occursB_false_of_head_notMem h)]
    rw [show fixSen s = s from replaceAllF_id _ _ (occursB_false_of_head_notMem h)]
    rw [show fixTg s = s from replaceAllF_id _ _ (occursB_false_of_head_notMem h)]

theorem contains_eq_false_of_notMem {c : Char} {l : List Char} (h : c ∉ l) :
    l.contains c = false := by
  induction l with
  | nil => rfl
  | cons a as ih =>
    have hca : ¬(c = a) := fun hc => h (by simp [hc])
    simp only [List.contains_cons]
    rw [ih (fun hm => h (List.mem_cons_of_mem _ hm))]
    simp [beq_eq_false_iff_ne, hca]

theorem matchBlock_at_span {X post : List Char} (hX : X ≠ []) (hd : '$' ∉ X) :
    matchBlock ('$' :: '$' :: (X ++ '$' :: '$' :: post)) = some (X, post) := by
  cases X with
  | nil => exact absurd rfl hX
  | cons x₀ X' =>
    simp only [List.cons_append, matchBlock]
    rw [if_pos (by simp)]
    have h1 : occursB ['$', '$'] X' = false :=
      occursB_false_of_head_notMem (fun hm => hd (List.mem_cons_of_mem _ hm))
    rw [splitOcc_first2 X' post
      (occursB_append_single X' h1 (Or.inr (fun hm => hd (List.mem_cons_of_mem _ hm))))]

theorem matchInline_at_span {Y post : List Char} (hY : Y ≠ []) (hd : '$' ∉ Y)
    (hn : '\n' ∉ Y) :
    matchInline ('$' :: (Y ++ '$' :: post)) = some (Y, post) := by
  simp only [matchInline]
  rw [if_pos trivial]
  rw [splitOcc_first1 Y post hd]
  show (if (!Y.isEmpty && !(Y.contains '\n')) = true then some (Y, post) else none) =
    some (Y, post)
  have h1 : Y.isEmpty = false := by
    cases Y with
    | nil => exact absurd rfl hY
    | cons _ _ => rfl
  rw [if_pos (by rw [h1, contains_eq_false_of_notMem hn]; rfl)]

theorem pass1F_span (r : Bool → List Char → Option (List Char)) :
    ∀ fuel pre X post,
      (pre ++ '$' :: '$' :: (X ++ '$' :: '$' :: post)).length ≤ fuel →
      (∀ ch ∈ pre, ch ≠ '$') → X ≠ [] → '$' ∉ X →
      pass1F r fuel (pre ++ '$' :: '$' :: (X ++ '$' :: '$' :: post)) =
        pre ++ ((match r true X with
                 | some m => m
                 | none => errBlockSpan X) ++ pass1F r post.length post) := by
  intro fuel
  induction fuel with
  | zero =>
    intro pre X post hf _ _ _
    exfalso
    simp [List.length_append] at hf
  | succ fuel ih =>
    intro pre X post hf hpre hX hd
    cases pre with
    | nil =>
      simp only [List.nil_append] at hf ⊢
      rw [pass1F_step_some (matchBlock_at_span hX hd)]
      have hr : post.length ≤ fuel := by
        simp [List.length_append] at hf
        omega
      rw [pass1F_fuel r fuel post post.length hr (le_refl _)]
    | cons p₀ pre' =>
      have hf' : (pre' ++ '$' :: '$' :: (X ++ '$' :: '$' :: post)).length ≤ fuel := by
        simp [List.length_append] at hf ⊢
        omega
      have hp₀ : p₀ ≠ '$' := hpre p₀ (by simp)
      have hnb : begins ['$', '$'] (p₀ :: (pre' ++ '$' :: '$' :: (X ++ '$' :: '$' :: post))) = false := by
        rw [begins_cons]
        have : ('$' = p₀ : Bool) = false := by
          simp only [decide_eq_false_iff_not]
          exact fun hh => hp₀ hh.symm
        simp [this]
      rw [List.cons_append, pass1F_step_none (matchBlock_none hnb)]
      rw [ih pre' X post hf' (fun ch hch => hpre ch (List.mem_cons_of_mem _ hch)) hX hd]
      rfl

theorem pass2F_span (r : Bool → List Char → Option (List Char)) :
    ∀ fuel pre Y post,
      (pre ++ '$' :: (Y ++ '$' :: post)).length ≤ fuel →
      (∀ ch ∈ pre, ch ≠ '$') → Y ≠ [] → '$' ∉ Y → '\n' ∉ Y →
      pass2F r fuel (pre ++ '$' :: (Y ++ '$' :: post)) =
        pre ++ ((if isMoney (trim Y) then '$' :: (Y ++ ['$'])
                 else match r false Y with
                   | some m => m
                   | none => errInlineSpan Y) ++ pass2F r post.length post) := by
  intro fuel
  induction fuel with
  | zero =>
    intro pre Y post hf _ _ _ _
    exfalso
    simp [List.length_append] at hf
  | succ fuel ih =>
    intro pre Y post hf hpre hY hd hn
    cases pre with
    | nil =>
      simp only [List.nil_append] at hf ⊢
      rw [pass2F_step_some (matchInline_at_span hY hd hn)]
      have hr : post.length ≤ fuel := by
        simp [List.length_append] at hf
        omega
      rw [pass2F_fuel r fuel post post.length hr (le_refl _)]
    | cons p₀ pre' =>
      have hf' : (pre' ++ '$' :: (Y ++ '$' :: post)).length ≤ fuel := by
        simp [List.length_append] at hf ⊢
        omega
      have hp₀ : p₀ ≠ '$' := hpre p₀ (by simp)
      rw [List.cons_append, pass2F_step_none (matchInline_none_head hp₀)]
      rw [ih pre' Y post hf' (fun ch hch => hpre ch (List.mem_cons_of_mem _ hch)) hY hd hn]
      rfl

/-!
## The tokenizer on match-free text and at a planted inline span
-/

theorem tokenizeF_nomatch : ∀ fuel s, s.length ≤ fuel →
    occursB "$$".data s = false → hasInlineSpan s = false → '\n' ∉ s →
    tokenizeF fuel s = if s = [] then [] else [Tok.ttext s] := by
  intro fuel
  induction fuel with
  | zero =>
    intro s hf _ _ _
    cases s with
    | nil => rfl
    | cons a rest => simp at hf
  | succ fuel ih =>
    intro s hf hdd hin hnl
    cases s with
    | nil => rfl
    | cons a rest =>
      rw [occursB_cons, Bool.or_eq_false_iff] at hdd
      rw [hasInlineSpan, Bool.or_eq_false_iff] at hin
      have hmi : matchInline (a :: rest) = none := by
        cases hm : matchInline (a :: rest) with
        | none => rfl
        | some iq => rw [hm] at hin; simp at hin
      have hna : a ≠ '\n' := fun hh => hnl (by simp [hh])
      rw [tokenizeF_step_text (matchBlock_none hdd.1) hmi hna]
      rw [ih rest (by simp at hf; omega) hdd.2 hin.2
        (fun hm => hnl (List.mem_cons_of_mem _ hm))]
      cases rest with
      | nil => rfl
      | cons b bs => rfl

theorem foldr_pushText_ne {toks : List Tok}
    (h : ∀ u rest', toks ≠ Tok.ttext u :: rest') :
    ∀ pre : List Char, pre ≠ [] →
      List.foldr pushText toks pre = Tok.ttext pre :: toks := by
  intro pre
  induction pre with
  | nil => intro hc; exact absurd rfl hc
  | cons c cs ih =>
    intro _
    cases cs with
    | nil =>
      show pushText c toks = Tok.ttext [c] :: toks
      cases toks with
      | nil => rfl
      | cons t₀ rest =>
        cases t₀ with
        | ttext u => exact absurd rfl (h u rest)
        | tmath2 x => rfl
        | tmath1 y => rfl
        | tbrk => rfl
    | cons d ds =>
      show pushText c (List.foldr pushText toks (d :: ds)) = Tok.ttext (c :: d :: ds) :: toks
      rw [ih (by simp)]
      rfl

theorem tokenizeF_copy : ∀ fuel pre z,
    (pre ++ z).length ≤ fuel → (∀ ch ∈ pre, ch ≠ '$' ∧ ch ≠ '\n') →
    tokenizeF fuel (pre ++ z) = List.foldr pushText (tokenizeF z.length z) pre := by
  intro fuel
  induction fuel with
  | zero =>
    intro pre z hf _
    cases pre with
    | nil =>
      cases z with
      | nil => rfl
      | cons a rest => simp at hf
    | cons a rest => simp at hf
  | succ fuel ih =>
    intro pre z hf hpre
    cases pre with
    | nil =>
      simp only [List.nil_append, List.foldr_nil]
      exact tokenizeF_fuel (fuel + 1) z z.length (by simpa using hf) (le_refl _)
    | cons c pre' =>
      have hc := hpre c (by simp)
      have hnb : begins ['$', '$'] (c :: (pre' ++ z)) = false := by
        rw [begins_cons]
        have : ('$' = c : Bool) = false := by
          simp only [decide_eq_false_iff_not]
          exact fun hh => hc.1 hh.symm
        simp [this]
      rw [List.cons_append,
        tokenizeF_step_text (matchBlock_none hnb) (matchInline_none_head hc.1) hc.2]
      rw [ih pre' z (by simp at hf ⊢; omega) (fun ch hch => hpre ch (List.mem_cons_of_mem _ hch))]
      rfl

theorem tokenizeF_inline_span (y post : List Char)
    (hy : y ≠ []) (hyD : '$' ∉ y) (hyN : '\n' ∉ y)
    (hpost : ∀ ch ∈ post, ch ≠ '$' ∧ ch ≠ '\n') :
    tokenizeF ('$' :: (y ++ '$' :: post)).length ('$' :: (y ++ '$' :: post)) =
      Tok.tmath1 y :: (if post = [] then [] else [Tok.ttext post]) := by
  have hlen : ('$' :: (y ++ '$' :: post)).length = (y ++ '$' :: post).length + 1 := by
    simp
  rw [hlen]
  have hnb : matchBlock ('$' :: (y ++ '$' :: post)) = none := by
    apply matchBlock_none
    cases y with
    | nil => exact absurd rfl hy
    | cons y₀ y' =>
      rw [List.cons_append, begins_cons]
      have : ('$' = y₀ : Bool) = false := by
        simp only [decide_eq_false_iff_not]
        exact fun hh => hyD (by simp [← hh])
      simp [begins, this]
  rw [tokenizeF_step_inline hnb (matchInline_at_span hy hyD hyN)]
  have hpp : occursB "$$".data post = false :=
    occursB_false_of_head_notMem (fun hm => (hpost _ hm).1 rfl)
  have hpi : hasInlineSpan post = false :=
    hasInlineSpan_false_of_no_dollar post (fun ch hch => (hpost ch hch).1)
  have hpn : '\n' ∉ post := fun hm => (hpost _ hm).2 rfl
  rw [tokenizeF_fuel (y ++ '$' :: post).length post post.length
    (by simp [List.length_append]; omega) (le_refl _)]
  rw [tokenizeF_nomatch post.length post (le_refl _) hpp hpi hpn]

/-!
## Claim C5 — the ambiguous-dollar (currency) heuristic
-/

/-- C5: a price-like inline span in general position.  The Inline
Renderer returns the input with the span byte-for-byte unchanged, and the
Run Splitter emits the span as a `text` segment whose value is the
original span including its dollar delimiters.  The side conditions say
the surrounding text contains no dollar signs, backslashes or newlines
(so the span really is an inline span of the parse and the Normalizer is
the identity), and the interior is a non-empty, `$`/newline-free string
whose trimmed form matches the price pattern. -/
theorem money_passthrough (r : Bool → List Char → Option (List Char))
    (pre y post : List Char)
    (hpre : ∀ ch ∈ pre, ch ≠ '$' ∧ ch ≠ '\n')
    (hpreB : '\\' ∉ pre)
    (hpost : ∀ ch ∈ post, ch ≠ '$' ∧ ch ≠ '\n')
    (hpostB : '\\' ∉ post)
    (hy : y ≠ []) (hyD : '$' ∉ y) (hyN : '\n' ∉ y) (hyB : '\\' ∉ y)
    (hdd : occursB "$$".data (pre ++ '$' :: (y ++ '$' :: post)) = false)
    (hm : isMoney (trim y) = true) :
    processMathForWord r (pre ++ '$' :: (y ++ '$' :: post)) =
      pre ++ '$' :: (y ++ '$' :: post) ∧
    splitTextAndMath (pre ++ '$' :: (y ++ '$' :: post)) =
      (if pre = [] then [] else [⟨SegKind.text, pre⟩]) ++
        ⟨SegKind.text, '$' :: (y ++ ['$'])⟩ ::
        (if post = [] then [] else [⟨SegKind.text, post⟩]) := by
  have hne : pre ++ '$' :: (y ++ '$' :: post) ≠ [] := by simp
  have hbs : '\\' ∉ pre ++ '$' :: (y ++ '$' :: post) := by
    intro hmem
    rcases List.mem_append.mp hmem with h | h
    · exact hpreB h
    · rcases List.mem_cons.mp h with h | h
      · exact absurd h (by decide)
      · rcases List.mem_append.mp h with h | h
        · exact hyB h
        · rcases List.mem_cons.mp h with h | h
          · exact absurd h (by decide)
          · exact hpostB h
  have hcl := cleanLatex_id_of_no_bs hbs
  constructor
  · rw [processMathForWord, if_neg hne, hcl]
    rw [pass1F_id r _ _ hdd]
    rw [pass2F_span r _ pre y post (le_refl _) (fun ch hch => (hpre ch hch).1) hy hyD hyN]
    rw [if_pos hm]
    rw [pass2F_id r _ _ (hasInlineSpan_false_of_no_dollar post (fun ch hch => (hpost ch hch).1))]
    simp
  · rw [splitTextAndMath, if_neg hne, hcl]
    rw [tokenizeF_copy _ pre ('$' :: (y ++ '$' :: post)) (le_refl _) hpre]
    rw [tokenizeF_inline_span y post hy hyD hyN hpost]
    have hsegy : classifyPart ('$' :: (y ++ ['$'])) = ⟨SegKind.text, '$' :: (y ++ ['$'])⟩ := by
      rw [classifyPart_inline y hy hyD, if_pos hm]
    have hplain : ∀ w : List Char, (∀ ch ∈ w, ch ≠ '$' ∧ ch ≠ '\n') →
        classifyPart w = ⟨SegKind.text, w⟩ := by
      intro w hw
      apply classifyPart_plain
      · intro hc
        subst hc
        exact (hw '\n' (by simp)).2 rfl
      · cases w with
        | nil => decide
        | cons c cs =>
          show begins ['$'] (c :: cs) = false
          rw [begins_cons]
          have hc : ('$' = c : Bool) = false := by
            simp only [decide_eq_false_iff_not]
            exact fun hh => (hw c (by simp)).1 hh.symm
          simp [hc]
    by_cases hpre0 : pre = []
    · subst hpre0
      by_cases hpost0 : post = []
      · subst hpost0
        simp [rawTok, hsegy]
      · simp [rawTok, hsegy, hpost0, hplain post hpost]
    · rw [foldr_pushText_ne (fun u rest' hc => by simp at hc) pre hpre0]
      by_cases hpost0 : post = []
      · subst hpost0
        simp [rawTok, hsegy, hpre0, hplain pre hpre]
      · simp [rawTok, hsegy, hpre0, hpost0, hplain pre hpre, hplain post hpost]

/-- Witness for C5 at `"Vale $1.000$ pesos"` with the concrete renderer. -/
theorem money_passthrough_w :
    processMathForWord renderTag ("Vale ".data ++ '$' :: ("1.000".data ++ '$' :: " pesos".data)) =
      "Vale ".data ++ '$' :: ("1.000".data ++ '$' :: " pesos".data) ∧
    splitTextAndMath ("Vale ".data ++ '$' :: ("1.000".data ++ '$' :: " pesos".data)) =
      (if "Vale ".data = ([] : List Char) then [] else [⟨SegKind.text, "Vale ".data⟩]) ++
        ⟨SegKind.text, '$' :: ("1.000".data ++ ['$'])⟩ ::
        (if " pesos".data = ([] : List Char) then [] else [⟨SegKind.text, " pesos".data⟩]) :=
  money_passthrough renderTag "Vale ".data "1.000".data " pesos".data
    (by decide) (by decide) (by decide) (by decide) (by decide) (by decide)
    (by decide) (by decide) (by decide) (by decide)

/-!
## Claim C6 — fault containment in the Inline Renderer
-/

/-- C6 (counterexample): a failing display fragment whose expression
contains a `$` corrupts the rest of the document, because the inline pass
rescans the display pass's output and pairs the error span's `$` with a
later delimiter.  On `"$$a$b$$ and $x$"` with a renderer failing exactly
on `a$b`: the otherwise-identical successful renderer yields a rendered
`<R>x</R>` for the inline fragment `$x$`, but with the failure neither
the rendered `x` fragment nor even the intact error-span text
`[Error LaTeX: a$b]` occurs in the output. -/
theorem render_fault_containment_cex :
    occursB "<R>x</R>".data (processMathForWord renderTag "$$a$b$$ and $x$".data) = true ∧
    occursB "<R>x</R>".data (processMathForWord renderTagFail "$$a$b$$ and $x$".data) = false ∧
    occursB "[Error LaTeX: a$b]".data
      (processMathForWord renderTagFail "$$a$b$$ and $x$".data) = false :=
  ⟨by decide, by decide, by decide⟩

/-- C6 (amended): `renderForEmbedding` is a total function for every
renderer oracle (exceptions stop at the per-fragment catch), and when the
failing expression introduces no dollar sign the failure is contained:
a failing display fragment is replaced by the block error span carrying
the literal expression and a failing non-price inline fragment by the
inline error span, with all surrounding text preserved byte-for-byte.
(When a failing display expression does contain `$`, the inline pass may
rescan across the error span — the counterexample above.) -/
theorem render_fault_containment :
    (∀ (r : Bool → List Char → Option (List Char)) (pre X post : List Char),
      r true X = none →
      (∀ ch ∈ pre, ch ≠ '$') → '\\' ∉ pre →
      (∀ ch ∈ post, ch ≠ '$') → '\\' ∉ post →
      X ≠ [] → '$' ∉ X → '\\' ∉ X →
      processMathForWord r (pre ++ '$' :: '$' :: (X ++ '$' :: '$' :: post)) =
        pre ++ errBlockSpan X ++ post) ∧
    (∀ (r : Bool → List Char → Option (List Char)) (pre Y post : List Char),
      r false Y = none → isMoney (trim Y) = false →
      (∀ ch ∈ pre, ch ≠ '$') → '\\' ∉ pre →
      (∀ ch ∈ post, ch ≠ '$') → '\\' ∉ post →
      Y ≠ [] → '$' ∉ Y → '\n' ∉ Y → '\\' ∉ Y →
      occursB "$$".data (pre ++ '$' :: (Y ++ '$' :: post)) = false →
      processMathForWord r (pre ++ '$' :: (Y ++ '$' :: post)) =
        pre ++ errInlineSpan Y ++ post) := by
  constructor
  · intro r pre X post hfail hpre hpreB hpost hpostB hX hXD hXB
    have hne : pre ++ '$' :: '$' :: (X ++ '$' :: '$' :: post) ≠ [] := by simp
    have hbs : '\\' ∉ pre ++ '$' :: '$' :: (X ++ '$' :: '$' :: post) := by
      intro hmem
      rcases List.mem_append.mp hmem with h | h
      · exact hpreB h
      · rcases List.mem_cons.mp h with h | h
        · exact absurd h (by decide)
        · rcases List.mem_cons.mp h with h | h
          · exact absurd h (by decide)
          · rcases List.mem_append.mp h with h | h
            · exact hXB h
            · rcases List.mem_cons.mp h with h | h
              · exact absurd h (by decide)
              · rcases List.mem_cons.mp h with h | h
                · exact absurd h (by decide)
                · exact hpostB h
    rw [processMathForWord, if_neg hne, cleanLatex_id_of_no_bs hbs]
    rw [pass1F_span r _ pre X post (le_refl _) hpre hX hXD]
    rw [hfail]
    rw [pass1F_id r _ _ (occursB_false_of_head_notMem (fun hm => (hpost _ hm) rfl))]
    have hA : ∀ ch ∈ pre ++ (errBlockSpan X ++ post), ch ≠ '$' := by
      intro ch hch
      rcases List.mem_append.mp hch with h | h
      · exact hpre ch h
      · rcases List.mem_append.mp h with h | h
        · rw [errBlockSpan] at h
          rcases List.mem_append.mp h with h | h
          · rcases List.mem_append.mp h with h | h
            · exact (by decide : ∀ c ∈ ("<span style=\"color: red; font-family: monospace;\">[Error LaTeX: ").data, c ≠ '$') ch h
            · exact fun hc => hXD (hc ▸ h)
          · exact (by decide : ∀ c ∈ ("]</span>").data, c ≠ '$') ch h
        · exact hpost ch h
    rw [pass2F_id r _ _ (hasInlineSpan_false_of_no_dollar _ hA)]
    simp
  · intro r pre Y post hfail hnm hpre hpreB hpost hpostB hY hYD hYN hYB hdd
    have hne : pre ++ '$' :: (Y ++ '$' :: post) ≠ [] := by simp
    have hbs : '\\' ∉ pre ++ '$' :: (Y ++ '$' :: post) := by
      intro hmem
      rcases List.mem_append.mp hmem with h | h
      · exact hpreB h
      · rcases List.mem_cons.mp h with h | h
        · exact absurd h (by decide)
        · rcases List.mem_append.mp h with h | h
          · exact hYB h
          · rcases List.mem_cons.mp h with h | h
            · exact absurd h (by decide)
            · exact hpostB h
    rw [processMathForWord, if_neg hne, cleanLatex_id_of_no_bs hbs]
    rw [pass1F_id r _ _ hdd]
    rw [pass2F_span r _ pre Y post (le_refl _) hpre hY hYD hYN]
    rw [if_neg (by simp [hnm])]
    rw [hfail]
    rw [pass2F_id r _ _ (hasInlineSpan_false_of_no_dollar post (fun ch hch => hpost ch hch))]
    simp

/-- Witness for the amended C6: the always-failing renderer on one
display and one inline span. -/
theorem render_fault_containment_w :
    processMathForWord (fun _ _ => none)
        ("a ".data ++ '$' :: '$' :: ("x".data ++ '$' :: '$' :: " b".data)) =
      "a ".data ++ errBlockSpan "x".data ++ " b".data ∧
    processMathForWord (fun _ _ => none)
        ("a ".data ++ '$' :: ("x+".data ++ '$' :: " b".data)) =
      "a ".data ++ errInlineSpan "x+".data ++ " b".data :=
  ⟨render_fault_containment.1 (fun _ _ => none) "a ".data "x".data " b".data rfl
      (by decide) (by decide) (by decide) (by decide) (by decide) (by decide) (by decide),
    render_fault_containment.2 (fun _ _ => none) "a ".data "x+".data " b".data rfl
      (by decide) (by decide) (by decide) (by decide) (by decide) (by decide)
      (by decide) (by decide) (by decide) (by decide)⟩

/-!
## Claim C7 — unbalanced delimiters pass through
-/

/-- C7 (counterexample): on the input `"$"` — a single dangling dollar,
no error raised anywhere — the dangling delimiter is NOT kept inside a
text segment: the splitter's `forEach` sees that the part both starts
and ends with `$` and classifies it as a math segment with empty value.
The renderer, by contrast, does return the input unchanged. -/
theorem unbalanced_passthrough_cex :
    splitTextAndMath "$".data = [⟨SegKind.math, []⟩] ∧
    (∀ seg ∈ splitTextAndMath "$".data, seg.type ≠ SegKind.text) ∧
    processMathForWord renderTag "$".data = "$".data :=
  ⟨by decide, by decide, by decide⟩

/-- C7 (amended): on any input the Normalizer leaves unchanged, in which
neither the display nor the inline alternative matches anywhere (a
dangling `$` with no closing `$` before a newline or the end), and whose
first character is not `$` (otherwise a part that also ends in `$` is
re-classified as math by the splitter's `forEach`), the Run Splitter
returns the whole input as one `text` segment and the Inline Renderer
returns the input unchanged, for every renderer oracle. -/
theorem unbalanced_passthrough (r : Bool → List Char → Option (List Char))
    (s : List Char)
    (hne : s ≠ []) (hcl : cleanLatex s = s)
    (hdd : occursB "$$".data s = false) (hin : hasInlineSpan s = false)
    (hnl : '\n' ∉ s) (hhd : begins "$".data s = false) :
    splitTextAndMath s = [⟨SegKind.text, s⟩] ∧ processMathForWord r s = s := by
  constructor
  · rw [splitTextAndMath, if_neg hne, hcl]
    rw [tokenizeF_nomatch s.length s (le_refl _) hdd hin hnl]
    rw [if_neg hne]
    rw [List.map_cons, List.map_nil]
    rw [show rawTok (Tok.ttext s) = s from rfl]
    rw [classifyPart_plain (fun hc => hnl (by simp [hc])) hhd]
  · rw [processMathForWord, if_neg hne, hcl]
    rw [pass1F_id r s.length s hdd]
    exact pass2F_id r s.length s hin

/-- Witness for C7 at the spec's example `"Cuesta $500 el kilo"`. -/
theorem unbalanced_passthrough_w :
    splitTextAndMath "Cuesta $500 el kilo".data =
      [⟨SegKind.text, "Cuesta $500 el kilo".data⟩] ∧
    processMathForWord renderTag "Cuesta $500 el kilo".data =
      "Cuesta $500 el kilo".data :=
  unbalanced_passthrough renderTag "Cuesta $500 el kilo".data
    (by decide) (by decide) (by decide) (by decide) (by decide) (by decide)

/-!
## Claim C10 — empty input
-/

/-- C10: on the empty string all three operations return their empty
result, for every renderer oracle (in particular the renderer is never
invoked). -/
theorem empty_input_behaviour :
    cleanLatex [] = [] ∧
    (∀ r : Bool → List Char → Option (List Char), processMathForWord r [] = []) ∧
    splitTextAndMath [] = [] :=
  ⟨rfl, fun _ => rfl, rfl⟩

end Pruebometro
